import Mathlib

/-!
Shallow embedding of `src/superset-frontend/src/SqlLab/reducers/getInitialState.js`.

JavaScript values are modelled by the inductive type `JVal`.  Numbers are
modelled by `Int` together with a separate `nan` constructor: every numeric
value occurring in the reducer (ids, timestamps, row limits) is integral and
exactly representable, so the fractional part of JS doubles is outside the
modelled fragment (a numeric string with a fractional part or an exponent is
mapped to `nan` by the `Number` coercion model below).

Objects are association lists of string keys in insertion order.  JavaScript
key-enumeration reorders integer-like keys; none of the proved properties
depend on enumeration order, only on lookups by key, so the embedding keeps
plain insertion order.  Reference equality of distinct objects/arrays is
modelled as `false`, which is exact for the values in scope (everything is
freshly produced by `JSON.parse`, which never aliases).

Exceptions (`TypeError` on property access of `null`/`undefined`, on calling
a missing method, or on destructuring a nullish value) are modelled with
`Except Unit`.  The `try { ... } catch {}` block around the legacy-storage
merge is modelled by total functions that return the state accumulated up to
the throwing step, exactly as the mutated JS variables would retain it.
-/

inductive JVal where
  | undef : JVal
  | null : JVal
  | bool : Bool → JVal
  | num : Int → JVal
  | nan : JVal
  | str : String → JVal
  | arr : List JVal → JVal
  | obj : List (String × JVal) → JVal

/-- JS truthiness: `undefined`, `null`, `false`, `0`, `NaN`, `""` are falsy. -/
def truthy : JVal → Bool
  | .undef => false
  | .null => false
  | .bool b => b
  | .num n => n != 0
  | .nan => false
  | .str s => !s.isEmpty
  | .arr _ => true
  | .obj _ => true

/-- A value is non-nullish when it is neither `undefined` nor `null`;
property access and destructuring throw exactly on nullish receivers. -/
def nonNullish : JVal → Bool
  | .undef => false
  | .null => false
  | _ => true

/-- JS strict equality `===`.  `NaN` is not equal to itself; objects and
arrays compare by reference, which is `false` for the non-aliased values in
scope. -/
def jsEq : JVal → JVal → Bool
  | .undef, .undef => true
  | .null, .null => true
  | .bool a, .bool b => a == b
  | .num a, .num b => a == b
  | .str a, .str b => a == b
  | _, _ => false

/-- SameValueZero, the equality used by `Set`: like `===` but `NaN` equals
`NaN`. -/
def setEq : JVal → JVal → Bool
  | .undef, .undef => true
  | .null, .null => true
  | .bool a, .bool b => a == b
  | .num a, .num b => a == b
  | .nan, .nan => true
  | .str a, .str b => a == b
  | _, _ => false

/-- JS disjunction `a || b`. -/
def jsOr (a b : JVal) : JVal := if truthy a then a else b

mutual
/-- JS `String(v)` / `v.toString()` (array elements joined by commas,
with `null`/`undefined` elements becoming empty). -/
def jsToString : JVal → String
  | .undef => "undefined"
  | .null => "null"
  | .bool true => "true"
  | .bool false => "false"
  | .num n => toString n
  | .nan => "NaN"
  | .str s => s
  | .arr xs => jsJoinElems xs
  | .obj _ => "[object Object]"
termination_by structural v => v

def jsJoinElems : List JVal → String
  | [] => ""
  | [JVal.null] => ""
  | [JVal.undef] => ""
  | [x] => jsToString x
  | JVal.null :: y :: xs => "," ++ jsJoinElems (y :: xs)
  | JVal.undef :: y :: xs => "," ++ jsJoinElems (y :: xs)
  | x :: y :: xs => jsToString x ++ "," ++ jsJoinElems (y :: xs)
termination_by structural l => l
end

/-- Method call `v.toString()`: throws on nullish receivers. -/
def jsToStringM : JVal → Except Unit String
  | .undef => .error ()
  | .null => .error ()
  | v => .ok (jsToString v)

/-- Decimal digit run to `Nat`, `none` if empty or a non-digit occurs. -/
def parseDigits (cs : List Char) : Option Nat :=
  if cs.isEmpty then none
  else if cs.all (·.isDigit) then
    some (cs.foldl (fun a c => a * 10 + (c.toNat - 48)) 0)
  else none

/-- JS whitespace recognised when `Number` trims a string (the ASCII
fragment). -/
def isJsSpace (c : Char) : Bool :=
  c == ' ' || c == '\t' || c == '\n' || c == '\r' || c == '\x0b' || c == '\x0c'

/-- Leading and trailing whitespace removal on a character list. -/
def trimChars (cs : List Char) : List Char :=
  ((cs.dropWhile isJsSpace).reverse.dropWhile isJsSpace).reverse

/-- Coercion `Number(s)` for a string, restricted to the integral fragment: optional
sign and decimal digits (after trimming); the empty string is `0`; any other
shape (fractions, exponents, hex) is mapped to `NaN`, which is outside the
fragment exercised by the reducer. -/
def strToNumber (s : String) : JVal :=
  let t := trimChars s.toList
  if t.isEmpty then .num 0
  else
    match t with
    | '-' :: rest =>
      match parseDigits rest with
      | some n => .num (-(n : Int))
      | none => .nan
    | '+' :: rest =>
      match parseDigits rest with
      | some n => .num (n : Int)
      | none => .nan
    | cs =>
      match parseDigits cs with
      | some n => .num (n : Int)
      | none => .nan

/-- JS `Number(v)` coercion. -/
def toNumber : JVal → JVal
  | .undef => .nan
  | .null => .num 0
  | .bool b => .num (if b then 1 else 0)
  | .num n => .num n
  | .nan => .nan
  | .str s => strToNumber s
  | .arr xs => strToNumber (jsToString (.arr xs))
  | .obj _ => .nan

/-! ### Object operations -/

/-- First-match lookup in an association list (JS property access for the
well-formed, duplicate-free objects produced by the reducer). -/
def lookup (fs : List (String × JVal)) (k : String) : Option JVal :=
  (fs.find? (fun p => p.1 == k)).map (·.2)

/-- Last-match lookup: the value a field list effectively supplies for a key
under JS spread semantics (later occurrences win). -/
def lookupLast : List (String × JVal) → String → Option JVal
  | [], _ => none
  | (k', v) :: rest, k =>
    match lookupLast rest k with
    | some w => some w
    | none => if k' == k then some v else none

/-- Assignment `o[k] = v` / a field in an object literal: replace the first occurrence
of the key in place, else append (JS insertion-order semantics). -/
def setField : List (String × JVal) → String → JVal → List (String × JVal)
  | [], k, v => [(k, v)]
  | (k', v') :: rest, k, v =>
    if k' == k then (k, v) :: rest else (k', v') :: setField rest k v

/-- Spread `{...base, ...extra}` restricted to the field lists. -/
def spreadInto (base : List (String × JVal)) (extra : List (String × JVal)) :
    List (String × JVal) :=
  extra.foldl (fun acc p => setField acc p.1 p.2) base

/-- Own enumerable properties of a value, as used by object spread and rest
destructuring: objects give their fields, arrays and strings their indexed
elements, every other value none. -/
def ownEnumerable : JVal → List (String × JVal)
  | .obj fs => fs
  | .arr xs => xs.enum.map (fun p => (toString p.1, p.2))
  | .str s => s.toList.enum.map (fun p => (toString p.1, JVal.str (String.singleton p.2)))
  | _ => []

/-- Property read `v[k]` on a non-nullish receiver (total; callers guard
nullish receivers with `getProp`).  Arrays and strings expose `length` and
canonical integer indices; other primitives have no properties. -/
def getPropD (v : JVal) (k : String) : JVal :=
  match v with
  | .obj fs => (lookup fs k).getD .undef
  | .arr xs =>
    if k == "length" then .num xs.length
    else
      match parseDigits k.toList with
      | some i => if toString i == k then xs.getD i .undef else .undef
      | none => .undef
  | .str s =>
    if k == "length" then .num s.length
    else
      match parseDigits k.toList with
      | some i =>
        if toString i == k then
          if h : i < s.toList.length then .str (String.singleton (s.toList.get ⟨i, h⟩))
          else .undef
        else .undef
      | none => .undef
  | _ => (.undef : JVal)

/-- Property read `v.k`: throws a `TypeError` on nullish receivers. -/
def getProp (v : JVal) (k : String) : Except Unit JVal :=
  match v with
  | .undef => .error ()
  | .null => .error ()
  | _ => .ok (getPropD v k)

/-- Optional chaining `v?.k`. -/
def optChain (v : JVal) (k : String) : JVal :=
  if nonNullish v then getPropD v k else (.undef : JVal)

/-- Destructuring form `const { k, ...rest } = v`: throws on nullish `v`; otherwise binds the
named property and collects the remaining own enumerable properties. -/
def destructureRest (v : JVal) (k : String) : Except Unit (JVal × JVal) :=
  match v with
  | .undef => .error ()
  | .null => .error ()
  | _ => .ok (getPropD v k, .obj ((ownEnumerable v).filter (fun p => p.1 != k)))

/-- The builtin `Object.values(v)`: throws on nullish, element list for arrays, indexed
characters for strings, field values for objects, empty otherwise. -/
def objectValues : JVal → Except Unit (List JVal)
  | .undef => .error ()
  | .null => .error ()
  | .obj fs => .ok (fs.map (·.2))
  | .arr xs => .ok xs
  | .str s => .ok (s.toList.map (fun c => JVal.str (String.singleton c)))
  | _ => .ok []

/-- Spreading a value into an array literal (`[...v]` / `push(...v)`):
arrays and strings are iterable, everything else throws. -/
def iterateElems : JVal → Except Unit (List JVal)
  | .arr xs => .ok xs
  | .str s => .ok (s.toList.map (fun c => JVal.str (String.singleton c)))
  | _ => .error ()

/-! ### dedupeTabHistory (source lines 22-28) -/

/-- Function `dedupeTabHistory` from the source: fold left, appending an entry only
when it differs (`===`) from the last appended one (`result.slice(-1)[0]`
is `undefined` for the empty accumulator).  `result.concat(tabId)` spreads
an array-valued entry into its elements and appends any other value as a
single element. -/
def dedupeTabHistory (tabHistory : List JVal) : List JVal :=
  tabHistory.foldl
    (fun result tabId =>
      if jsEq ((result.getLast?).getD .undef) tabId then result
      else
        match tabId with
        | .arr xs => result ++ xs
        | _ => result ++ [tabId])
    []

/-! ### getInitialState (source lines 30-235): inputs and server stage -/

/-- Modelled from the spec: the translation utility `t` imported from the
UI-core package is an external collaborator ("locale/translation utilities"
are out of scope, specified only at the interface boundary); it is modelled
as the identity on the message string. -/
def translateMsg (s : String) : String := s

/-- Destructured argument object of `getInitialState`; a field the caller
omits is `undefined`. -/
structure Args where
  defaultDbId : JVal
  common : JVal
  active_tab : JVal
  tab_state_ids : JVal
  databases : JVal
  queries : JVal
  requested_query : JVal
  user : JVal

/-- The mutable working collections of the reducer body: the editor mapping,
tab history, table mapping, query mapping and the unsaved editor record. -/
structure WorkState where
  queryEditors : List (String × JVal)
  tabHistory : List JVal
  tables : List (String × JVal)
  queries : List (String × JVal)
  unsavedQueryEditor : JVal

/-- Template for a brand-new empty editor tab (source lines 49-66). -/
def defaultQueryEditor (defaultDbId limit : JVal) : JVal :=
  .obj
    [("id", .null),
     ("loaded", .bool true),
     ("name", .str (translateMsg "Untitled query")),
     ("sql", .str "SELECT *\nFROM\nWHERE"),
     ("selectedText", .null),
     ("latestQueryId", .null),
     ("autorun", .bool false),
     ("templateParams", .null),
     ("dbId", defaultDbId),
     ("queryLimit", limit),
     ("validationResult", .obj [("id", .null), ("errors", .arr []), ("completed", .bool false)]),
     ("hideLeftBar", .bool false)]

/-- Fully populated editor for the active tab (source lines 76-97); only
called under the guard `activeTab && activeTab.id === id`, so the receiver
is truthy and the property reads cannot throw. -/
def buildQueryEditor (activeTab : JVal) (idStr : String) : JVal :=
  let latestQ := getPropD activeTab "latest_query"
  .obj
    [("id", .str idStr),
     ("loaded", .bool true),
     ("name", getPropD activeTab "label"),
     ("sql", jsOr (getPropD activeTab "sql") .undef),
     ("selectedText", .undef),
     ("latestQueryId", if truthy latestQ then getPropD latestQ "id" else .null),
     ("remoteId", optChain (getPropD activeTab "saved_query") "id"),
     ("autorun", getPropD activeTab "autorun"),
     ("templateParams", jsOr (getPropD activeTab "template_params") .undef),
     ("dbId", getPropD activeTab "database_id"),
     ("schema", getPropD activeTab "schema"),
     ("queryLimit", getPropD activeTab "query_limit"),
     ("validationResult", .obj [("id", .null), ("errors", .arr []), ("completed", .bool false)]),
     ("hideLeftBar", getPropD activeTab "hide_left_bar")]

/-- Lazy stub editor for a non-active tab (source lines 100-105). -/
def dummyEditorFields (defQE : JVal) (idStr : String) (label : JVal) :
    List (String × JVal) :=
  setField (setField (setField (ownEnumerable defQE) "id" (.str idStr))
      "loaded" (.bool false))
    "name" label

/-- The `tabStateIds.forEach` loop (source lines 73-111) building the editor
mapping; each entry is destructured (throwing on nullish entries) and keyed
by `id.toString()`. -/
def serverStageEditors (activeTab defQE : JVal) :
    List JVal → List (String × JVal) → Except Unit (List (String × JVal))
  | [], m => .ok m
  | entry :: rest, m => do
    let id ← getProp entry "id"
    let label := getPropD entry "label"
    let idStr ← jsToStringM id
    let qe :=
      if truthy activeTab && jsEq (getPropD activeTab "id") id then
        buildQueryEditor activeTab idStr
      else .obj (dummyEditorFields defQE idStr label)
    serverStageEditors activeTab defQE rest (setField m idStr qe)

/-- The filter `tableSchema.description !== null` (source line 117); the
predicate itself throws on a nullish element. -/
def filterDescNonNull : List JVal → Except Unit (List JVal)
  | [] => .ok []
  | ts :: rest => do
    let d ← getProp ts "description"
    let kept ← filterDescNonNull rest
    pure (if jsEq d .null then kept else ts :: kept)

/-- The `forEach` over the kept table schemas (source lines 118-135): split
`dataPreviewQueryId` out of the description, build the table record, and key
it by its `id`. -/
def buildTables : List JVal → List (String × JVal) → Except Unit (List (String × JVal))
  | [], m => .ok m
  | ts :: rest, m => do
    let d ← getProp ts "description"
    let dp ← destructureRest d "dataPreviewQueryId"
    let qeIdStr ← jsToStringM (getPropD ts "tab_state_id")
    let table : JVal := .obj
      [("dbId", getPropD ts "database_id"),
       ("queryEditorId", .str qeIdStr),
       ("schema", getPropD ts "schema"),
       ("name", getPropD ts "table"),
       ("expanded", getPropD ts "expanded"),
       ("id", getPropD ts "id"),
       ("dataPreviewQueryId", dp.1),
       ("persistData", dp.2),
       ("initialized", .bool true)]
    buildTables rest (setField m (jsToString (getPropD ts "id")) table)

/-- Table extraction from the active tab (source lines 114-136). -/
def serverTables (activeTab : JVal) : Except Unit (List (String × JVal)) := do
  let ts ← getProp activeTab "table_schemas"
  match ts with
  | .arr l => do
    let kept ← filterDescNonNull l
    buildTables kept []
  | _ => .error ()

/-- The `tab_state_ids` parameter after its declared default (`= []` when
the property is `undefined`); calling `.forEach` on anything but an array
throws. -/
def tabStateEntries (v : JVal) : Except Unit (List JVal) :=
  match (if v matches .undef then JVal.arr [] else v) with
  | .arr xs => .ok xs
  | _ => .error ()

/-- The single-entry server tab history (source line 113):
`activeTab ? [activeTab.id.toString()] : []`. -/
def serverTabHistory (activeTab : JVal) : Except Unit (List JVal) :=
  if truthy activeTab then do
    let s ← jsToStringM (getPropD activeTab "id")
    pure [JVal.str s]
  else pure []

/-- The table extraction guarded by `if (activeTab)` (source line 115). -/
def serverTablesStage (activeTab : JVal) : Except Unit (List (String × JVal)) :=
  if truthy activeTab then serverTables activeTab else pure []

/-- Server-state stage (source lines 48-138): the default template, the
editor mapping from `tab_state_ids`, the single-entry tab history, the
active tab's tables, and a copy of the server queries. -/
def serverStage (a : Args) : Except Unit WorkState := do
  let conf ← getProp a.common "conf"
  let limit ← getProp conf "DEFAULT_SQLLAB_LIMIT"
  let entries ← tabStateEntries a.tab_state_ids
  let qeMap ← serverStageEditors a.active_tab (defaultQueryEditor a.defaultDbId limit)
      entries []
  let tabHistory ← serverTabHistory a.active_tab
  let tables ← serverTablesStage a.active_tab
  pure
    { queryEditors := qeMap
      tabHistory := tabHistory
      tables := tables
      queries := spreadInto [] (ownEnumerable a.queries)
      unsavedQueryEditor := .obj [] }

/-! ### Legacy-state stage (source lines 140-195) -/

/-- Merged editor object for one legacy editor (source lines 162-169):
spread the existing editor, spread the legacy record, set
`name: qe.title || qe.name`, conditionally spread the unsaved editor when
`unsavedQueryEditor.id === qe.id`, then set the two flags. -/
def mergeLegacyEditorFields (unsaved existing qe : JVal) : List (String × JVal) :=
  let s1 := spreadInto [] (ownEnumerable existing)
  let s2 := spreadInto s1 (ownEnumerable qe)
  let s3 := setField s2 "name" (jsOr (getPropD qe "title") (getPropD qe "name"))
  let s4 :=
    if jsEq (getPropD unsaved "id") (getPropD qe "id") then
      spreadInto s3 (ownEnumerable unsaved)
    else s3
  setField (setField s4 "inLocalStorage" (.bool true)) "loaded" (.bool true)

/-- The `sqlLab.queryEditors.forEach` loop (source lines 159-171).  A
nullish element makes `qe.id` throw; the mapping mutated so far is retained
(carried in the error value) because the reassignments already happened. -/
def mergeEditorsLoop (unsaved : JVal) :
    List JVal → List (String × JVal) →
    Except (List (String × JVal)) (List (String × JVal))
  | [], m => .ok m
  | qe :: rest, m =>
    if nonNullish qe then
      let key := jsToString (getPropD qe "id")
      let existing := (lookup m key).getD .undef
      mergeEditorsLoop unsaved rest
        (setField m key (.obj (mergeLegacyEditorFields unsaved existing qe)))
    else .error m

/-- Owning-editor identifier of a legacy table record. -/
def tableQeid (t : JVal) : JVal := getPropD t "queryEditorId"

/-- Mapping key of a legacy table record. -/
def tableKey (t : JVal) : String := jsToString (getPropD t "id")

/-- Merged table object for one legacy table (source lines 178-185): spread
the previous table from the pre-merge mapping, spread the legacy record,
then set the recomputed `expanded` flag. -/
def mergedTable (orig : List (String × JVal)) (t : JVal) (e : Bool) : JVal :=
  .obj (setField
    (spreadInto (spreadInto [] (ownEnumerable ((lookup orig (tableKey t)).getD .undef)))
      (ownEnumerable t))
    "expanded" (.bool e))

/-- The `sqlLab.tables.reduce` (source lines 172-186).  `expandedTables` is
the `Set` of owning-editor ids already granted expansion (SameValueZero
membership); `orig` is the outer `tables` variable, which the callback reads
for previous records and which is only reassigned after the whole reduce
returns — so a throw (`none`) leaves the table mapping untouched. -/
def mergeTablesLoop (orig : List (String × JVal)) :
    List JVal → List JVal → List (String × JVal) → Option (List (String × JVal))
  | _, [], merged => some merged
  | seen, t :: rest, merged =>
    if nonNullish t then
      let e := !(seen.any (fun x => setEq x (tableQeid t)))
      let seen' := if e then tableQeid t :: seen else seen
      mergeTablesLoop orig seen' rest (setField merged (tableKey t) (mergedTable orig t e))
    else none

/-- The loop over `Object.values(sqlLab.queries)` (source lines 187-189);
each value is re-keyed by its `id` and tagged `inLocalStorage: true`,
fully replacing any previous entry.  A nullish value throws, keeping the
assignments made so far (carried in the error value). -/
def mergeQueriesLoop :
    List JVal → List (String × JVal) →
    Except (List (String × JVal)) (List (String × JVal))
  | [], m => .ok m
  | q :: rest, m =>
    if nonNullish q then
      mergeQueriesLoop rest
        (setField m (jsToString (getPropD q "id"))
          (.obj (setField (spreadInto [] (ownEnumerable q)) "inLocalStorage" (.bool true))))
    else .error m

/-- The merge branch of the legacy stage (source lines 156-190), entered
when the parsed blob has a truthy `sqlLab` whose `queryEditors.length` is
not `0`.  Total: every JS exception inside the `try` is caught by the
enclosing `catch`, so each failing step simply keeps the state mutated so
far. -/
def legacyMerge (sqlLab : JVal) (st : WorkState) : WorkState :=
  let unsaved := jsOr (getPropD sqlLab "unsavedQueryEditor") (.obj [])
  let st1 := { st with unsavedQueryEditor := unsaved }
  match getPropD sqlLab "queryEditors" with
  | .arr qes =>
    match mergeEditorsLoop unsaved qes st1.queryEditors with
    | .error m => { st1 with queryEditors := m }
    | .ok m =>
      let st2 := { st1 with queryEditors := m }
      match getPropD sqlLab "tables" with
      | .arr ts =>
        match mergeTablesLoop st2.tables [] ts st2.tables with
        | none => st2
        | some m2 =>
          let st3 := { st2 with tables := m2 }
          match objectValues (getPropD sqlLab "queries") with
          | .error _ => st3
          | .ok qvals =>
            match mergeQueriesLoop qvals st3.queries with
            | .error mq => { st3 with queries := mq }
            | .ok mq =>
              let st4 := { st3 with queries := mq }
              match iterateElems (getPropD sqlLab "tabHistory") with
              | .error _ => st4
              | .ok hs => { st4 with tabHistory := st4.tabHistory ++ hs }
      | _ => st2
  | _ => st1

/-- Legacy-state stage (source lines 140-195).  The composed
`localStorage.getItem('redux')` read and `JSON.parse` is abstracted as
`legacy`: `none` when the key is absent (or holds the empty string, which
fails the truthiness guard exactly like an absent key), `some (.error ())`
when `JSON.parse` throws, and `some (.ok v)` when it parses to `v`
(`JSON.parse` is deterministic, so the source's two calls agree).  The
returned flag records whether `localStorage.removeItem('redux')` ran. -/
def legacyStage (legacy : Option (Except Unit JVal)) (st : WorkState) :
    WorkState × Bool :=
  match legacy with
  | none => (st, false)
  | some (.error _) => (st, false)
  | some (.ok v) =>
    match getProp v "sqlLab" with
    | .error _ => (st, false)
    | .ok sqlLab =>
      if truthy sqlLab then
        match getProp (getPropD sqlLab "queryEditors") "length" with
        | .error _ => (st, false)
        | .ok len =>
          if jsEq len (.num 0) then (st, true)
          else (legacyMerge sqlLab st, false)
      else (st, false)

/-! ### Normalization and assembly (source lines 197-234) -/

/-- Field list of one query after timestamp coercion (source lines 206-214):
spread the query, then replace `startDttm`/`endDttm` by their numeric
values only when the present value is truthy. -/
def coerceQueryFields (q : JVal) : List (String × JVal) :=
  let base := spreadInto [] (ownEnumerable q)
  let s := getPropD q "startDttm"
  let b1 := if truthy s then setField base "startDttm" (toNumber s) else base
  let e := getPropD q "endDttm"
  if truthy e then setField b1 "endDttm" (toNumber e) else b1

/-- Timestamp coercion of one query value; `query.startDttm` throws on a
nullish query value (this map runs outside the `try` block). -/
def coerceQuery : JVal → Except Unit JVal
  | .undef => .error ()
  | .null => .error ()
  | q => .ok (.obj (coerceQueryFields q))

/-- The `Object.entries(queries).map` / `Object.fromEntries` pipeline
(source lines 203-216); keys are preserved. -/
def coerceQueries : List (String × JVal) → Except Unit (List (String × JVal))
  | [] => .ok []
  | (k, q) :: rest => do
    let q' ← coerceQuery q
    let rest' ← coerceQueries rest
    pure ((k, q') :: rest')

/-- The `sqlLab` sub-object of the returned snapshot. -/
structure SqlLabState where
  activeSouthPaneTab : String
  alerts : List JVal
  databases : JVal
  offline : Bool
  queries : List (String × JVal)
  queryEditors : List JVal
  tabHistory : List JVal
  tables : List JVal
  queriesLastUpdate : Int
  user : JVal
  unsavedQueryEditor : JVal
  queryCostEstimates : List (String × JVal)

/-- The returned snapshot.  `messageToastsInput` records the argument handed
to the external collaborator `getToastsFromPyFlashMessages` (modelled from
the spec: toast rendering is out of scope, specified only at the interface
boundary), namely `(common || {}).flash_messages || []`. -/
structure Snapshot where
  sqlLab : SqlLabState
  requestedQuery : JVal
  messageToastsInput : JVal
  localStorageUsageInKilobytes : Int
  commonFlashMessages : JVal
  commonConf : JVal

/-- Final assembly (source lines 197-234).  `now` is the value of
`Date.now()` at assembly time.  `common` is non-nullish whenever this runs,
since building the default editor template already read `common.conf`. -/
def assemble (a : Args) (st : WorkState) (now : Int) : Except Unit Snapshot := do
  let qs ← coerceQueries st.queries
  pure
    { sqlLab :=
        { activeSouthPaneTab := "Results"
          alerts := []
          databases := a.databases
          offline := false
          queries := qs
          queryEditors := st.queryEditors.map (·.2)
          tabHistory := dedupeTabHistory st.tabHistory
          tables := st.tables.map (·.2)
          queriesLastUpdate := now
          user := a.user
          unsavedQueryEditor := st.unsavedQueryEditor
          queryCostEstimates := [] }
      requestedQuery := a.requested_query
      messageToastsInput := jsOr (getPropD (jsOr a.common (.obj [])) "flash_messages") (.arr [])
      localStorageUsageInKilobytes := 0
      commonFlashMessages := getPropD a.common "flash_messages"
      commonConf := getPropD a.common "conf" }

/-- The reducer `getInitialState` (source lines 30-235), as a function of
the destructured argument object, the abstracted legacy-storage read, and
the assembly wall-clock time.  The second component records whether the
legacy store key was removed. -/
def getInitialState (a : Args) (legacy : Option (Except Unit JVal)) (now : Int) :
    Except Unit Snapshot × Bool :=
  match serverStage a with
  | .error e => (.error e, false)
  | .ok st =>
    let p := legacyStage legacy st
    (assemble a p.1 now, p.2)

/-! ### Specification-side definitions used by the verification -/

/-- Recursive form of the dedupe fold, carrying the last appended entry
(`.undef` when nothing has been appended yet).  An array-valued entry is
spread by `concat`; afterwards the last appended entry is the array's last
element (unchanged for an empty array). -/
def dedupeGo (last : JVal) : List JVal → List JVal
  | [] => []
  | x :: t =>
    if jsEq last x then dedupeGo last t
    else
      match x with
      | .arr xs => xs ++ dedupeGo ((xs.getLast?).getD last) t
      | _ => x :: dedupeGo x t

/-- Whether a value is an array (the values `concat` spreads). -/
def isArr : JVal → Bool
  | .arr _ => true
  | _ => false

/-- Whether a value is an identifier in the sense of the tab history: a
string or a number. -/
def isIdentifier : JVal → Bool
  | .str _ => true
  | .num _ => true
  | _ => false

/-- Consecutive-duplicate collapse on identifier lists, continued after a
kept identifier `a`. -/
def collapseFrom (a : String) : List String → List String
  | [] => []
  | b :: t => if b = a then collapseFrom a t else b :: collapseFrom b t

/-- Consecutive-duplicate collapse on identifier lists: keep the head, then
drop each identifier equal to the previously kept one. -/
def collapseConsecutive : List String → List String
  | [] => []
  | a :: t => a :: collapseFrom a t

/-- Both tables are marked `expanded: true` and share their owning-editor
identifier. -/
def bothExpandedShareEditor (t u : JVal) : Bool :=
  jsEq (getPropD t "expanded") (.bool true) &&
    jsEq (getPropD u "expanded") (.bool true) &&
    jsEq (getPropD t "queryEditorId") (getPropD u "queryEditorId")

/-- No two tables of the list are both marked expanded for the same owning
editor. -/
def atMostOneExpandedPerEditor : List JVal → Bool
  | [] => true
  | t :: rest =>
    rest.all (fun u => !bothExpandedShareEditor t u) && atMostOneExpandedPerEditor rest

/-- Expansion flag the legacy-merge stage assigns to the `i`-th legacy
table: expanded exactly when no earlier table in the sequence has a
SameValueZero-equal owning-editor identifier. -/
def expandedFlagSpec (l : List JVal) (i : Nat) : Bool :=
  !((l.take i).any (fun t => setEq (tableQeid t) (tableQeid (l.getD i .undef))))

/-- Well-formed `tab_state_ids` entry: destructurable with an id on which
`toString()` can be called. -/
def wfEntry (e : JVal) : Bool :=
  nonNullish e && nonNullish (getPropD e "id")

/-- Well-formed `table_schemas` entry: destructurable, and its description
is either `null` (the entry is dropped) or a destructurable value together
with a `tab_state_id` on which `toString()` can be called. -/
def wfTableSchema (ts : JVal) : Bool :=
  nonNullish ts &&
    (jsEq (getPropD ts "description") .null ||
      (nonNullish (getPropD ts "description") && nonNullish (getPropD ts "tab_state_id")))

/-- Well-formed `active_tab`: either falsy (treated as absent), or carrying
an id on which `toString()` can be called and an array of well-formed table
schemas. -/
def wfActiveTab (v : JVal) : Bool :=
  !truthy v ||
    (nonNullish (getPropD v "id") &&
      match getPropD v "table_schemas" with
      | .arr l => l.all wfTableSchema
      | _ => false)

/-- Well-formed `tab_state_ids`: omitted (the declared default `[]` kicks
in) or an array of well-formed entries. -/
def wfTabStateIds : JVal → Bool
  | .undef => true
  | .arr l => l.all wfEntry
  | _ => false

/-- Well-formed server `queries`: every own enumerable value is non-nullish
(the timestamp coercion reads properties of each value outside the `try`
block). -/
def wfQueries (v : JVal) : Bool :=
  (ownEnumerable v).all (fun p => nonNullish p.2)

/-- The input contract of the reducer: `common.conf` reachable, and the
optional server-derived inputs either absent or of the documented shape. -/
def wfArgs (a : Args) : Bool :=
  nonNullish a.common && nonNullish (getPropD a.common "conf") &&
    wfTabStateIds a.tab_state_ids && wfActiveTab a.active_tab && wfQueries a.queries

/-! ### Concrete inputs for the testable properties -/

/-- A minimal `common` input of the required shape. -/
def commonA : JVal :=
  .obj [("conf", .obj [("DEFAULT_SQLLAB_LIMIT", .num 1000)]), ("flash_messages", .arr [])]

/-- Server state with a single tab descriptor `{id: '1', label: 'Old'}` and
no active tab. -/
def argsOneTab : Args :=
  { defaultDbId := .num 1
    common := commonA
    active_tab := .undef
    tab_state_ids := .arr [.obj [("id", .str "1"), ("label", .str "Old")]]
    databases := .obj []
    queries := .undef
    requested_query := .undef
    user := .undef }

/-- Legacy blob with one editor `{id: '1', name: 'New', sql: 'SELECT 1'}`. -/
def legacyPrecedence : JVal :=
  .obj [("sqlLab", .obj
    [("queryEditors", .arr
       [.obj [("id", .str "1"), ("name", .str "New"), ("sql", .str "SELECT 1")]]),
     ("tables", .arr []),
     ("queries", .obj []),
     ("tabHistory", .arr [])])]

/-- Active tab carrying two previewed tables, both `expanded: true`, owned
by the same editor. -/
def activeTabTwoExpanded : JVal :=
  .obj
    [("id", .num 1), ("label", .str "L"),
     ("table_schemas", .arr
       [.obj [("id", .num 10), ("tab_state_id", .num 1), ("expanded", .bool true),
              ("description", .obj [])],
        .obj [("id", .num 11), ("tab_state_id", .num 1), ("expanded", .bool true),
              ("description", .obj [])]])]

/-- Arguments whose server state already contains two expanded tables for
one editor; no legacy blob will touch them. -/
def argsTwoExpanded : Args :=
  { defaultDbId := .num 1
    common := commonA
    active_tab := activeTabTwoExpanded
    tab_state_ids := .arr [.obj [("id", .num 1), ("label", .str "L")]]
    databases := .obj []
    queries := .undef
    requested_query := .undef
    user := .undef }

/-- Legacy blob with three tables, all `expanded: true`, sharing one owning
editor. -/
def legacyThreeExpanded : JVal :=
  .obj [("sqlLab", .obj
    [("queryEditors", .arr [.obj [("id", .str "1")]]),
     ("tables", .arr
       [.obj [("id", .num 10), ("queryEditorId", .str "1"), ("expanded", .bool true)],
        .obj [("id", .num 11), ("queryEditorId", .str "1"), ("expanded", .bool true)],
        .obj [("id", .num 12), ("queryEditorId", .str "1"), ("expanded", .bool true)]]),
     ("queries", .obj []),
     ("tabHistory", .arr [])])]

/-- Legacy blob whose editor supplies both a truthy `title` and a `name`. -/
def legacyTitleAndName : JVal :=
  .obj [("sqlLab", .obj
    [("queryEditors", .arr
       [.obj [("id", .str "1"), ("title", .str "T"), ("name", .str "N")]]),
     ("tables", .arr []),
     ("queries", .obj []),
     ("tabHistory", .arr [])])]

/-- Legacy blob already migrated: `queryEditors` is empty. -/
def legacyMigrated : JVal :=
  .obj [("sqlLab", .obj
    [("queryEditors", .arr []), ("tables", .arr []),
     ("queries", .obj []), ("tabHistory", .arr [])])]

/-- Server queries: one with a string `startDttm`, one without the key. -/
def argsTimestamps : Args :=
  { defaultDbId := .num 1
    common := commonA
    active_tab := .undef
    tab_state_ids := .undef
    databases := .obj []
    queries := .obj
      [("q1", .obj [("id", .str "q1"), ("startDttm", .str "1690000000000")]),
       ("q2", .obj [("id", .str "q2")])]
    requested_query := .undef
    user := .undef }

/-- Server state with one query `q1` carrying a field `a`. -/
def argsServerQuery : Args :=
  { defaultDbId := .num 1
    common := commonA
    active_tab := .undef
    tab_state_ids := .arr [.obj [("id", .str "1"), ("label", .str "Old")]]
    databases := .obj []
    queries := .obj [("q1", .obj [("id", .str "q1"), ("a", .num 1)])]
    requested_query := .undef
    user := .undef }

/-- Legacy blob whose query mapping also holds `q1`, with different
fields. -/
def legacyQueryOverwrite : JVal :=
  .obj [("sqlLab", .obj
    [("queryEditors", .arr [.obj [("id", .str "1")]]),
     ("tables", .arr []),
     ("queries", .obj [("q1", .obj [("id", .str "q1"), ("b", .num 2)])]),
     ("tabHistory", .arr [])])]

/-- Active tab with a table schema lacking a `description` key: its
description reads as `undefined`, which passes the `!== null` filter and
then throws on destructuring. -/
def activeTabNoDescription : JVal :=
  .obj
    [("id", .num 1), ("label", .str "L"),
     ("table_schemas", .arr [.obj [("id", .num 10), ("tab_state_id", .num 1)]])]

/-- Arguments triggering the undefined-description throw. -/
def argsNoDescription : Args :=
  { defaultDbId := .num 1
    common := commonA
    active_tab := activeTabNoDescription
    tab_state_ids := .arr []
    databases := .obj []
    queries := .undef
    requested_query := .undef
    user := .undef }

/-! ### Association-list lemmas -/

theorem lookup_cons (k0 : String) (v0 : JVal) (rest : List (String × JVal)) (k : String) :
    lookup ((k0, v0) :: rest) k = if k0 = k then some v0 else lookup rest k := by
  by_cases h : k0 = k
  · have hb : (k0 == k) = true := by simpa using h
    simp [lookup, List.find?, hb, h]
  · have hb : (k0 == k) = false := by simpa using h
    simp [lookup, List.find?, hb, h]

theorem lookup_setField (fs : List (String × JVal)) (k : String) (v : JVal) (k' : String) :
    lookup (setField fs k v) k' = if k = k' then some v else lookup fs k' := by
  induction fs with
  | nil => by_cases h : k = k' <;> simp [setField, lookup_cons, h]
  | cons p rest ih =>
    obtain ⟨k0, v0⟩ := p
    by_cases h0 : k0 = k
    · have hb : (k0 == k) = true := by simpa using h0
      subst h0
      by_cases h : k0 = k' <;> simp [setField, hb, lookup_cons, h]
    · have hb : (k0 == k) = false := by simpa using h0
      by_cases h : k0 = k'
      · subst h
        have hkk : ¬k = k0 := fun hh => h0 hh.symm
        simp [setField, hb, lookup_cons, hkk]
      · simp [setField, hb, lookup_cons, h, ih]

theorem mem_setField {fs : List (String × JVal)} {k : String} {v : JVal} {p : String × JVal}
    (h : p ∈ setField fs k v) : p = (k, v) ∨ p ∈ fs := by
  induction fs with
  | nil => simpa [setField] using h
  | cons q rest ih =>
    obtain ⟨k0, v0⟩ := q
    by_cases h0 : k0 = k
    · have hb : (k0 == k) = true := by simpa using h0
      simp only [setField, hb, if_true] at h
      rcases List.mem_cons.mp h with h1 | h1
      · exact Or.inl h1
      · exact Or.inr (List.mem_cons_of_mem _ h1)
    · have hb : (k0 == k) = false := by simpa using h0
      simp only [setField, hb, Bool.false_eq_true, if_false] at h
      rcases List.mem_cons.mp h with h1 | h1
      · exact Or.inr (h1 ▸ List.mem_cons_self _ _)
      · rcases ih h1 with h2 | h2
        · exact Or.inl h2
        · exact Or.inr (List.mem_cons_of_mem _ h2)

theorem lookup_spreadInto (b a : List (String × JVal)) (k : String) :
    lookup (spreadInto a b) k =
      match lookupLast b k with
      | some w => some w
      | none => lookup a k := by
  induction b generalizing a with
  | nil => simp [spreadInto, lookupLast]
  | cons p rest ih =>
    obtain ⟨k0, v0⟩ := p
    have hstep : spreadInto a ((k0, v0) :: rest) = spreadInto (setField a k0 v0) rest := rfl
    rw [hstep, ih]
    cases hl : lookupLast rest k with
    | some w => simp [lookupLast, hl]
    | none =>
      by_cases h0 : k0 = k
      · have hb : (k0 == k) = true := by simpa using h0
        subst h0
        simp [lookupLast, hl, hb, lookup_setField]
      · have hb : (k0 == k) = false := by simpa using h0
        simp [lookupLast, hl, hb, lookup_setField, h0]

theorem lookup_spreadNil (b : List (String × JVal)) (k : String) :
    lookup (spreadInto [] b) k = lookupLast b k := by
  rw [lookup_spreadInto]
  cases hl : lookupLast b k <;> simp [lookup]

/-! ### dedupeTabHistory: fold/recursion correspondence -/

theorem dedupeGo_cons_nonArr {x : JVal} (hx : isArr x = false) (last : JVal)
    (t : List JVal) :
    dedupeGo last (x :: t)
      = if jsEq last x then dedupeGo last t else x :: dedupeGo x t := by
  cases x <;> first | rfl | simp [isArr] at hx

theorem dedupe_foldl_eq (t : List JVal) (r : List JVal) :
    List.foldl
        (fun result tabId =>
          if jsEq ((result.getLast?).getD .undef) tabId then result
          else
            match tabId with
            | .arr xs => result ++ xs
            | _ => result ++ [tabId])
        r t
      = r ++ dedupeGo ((r.getLast?).getD .undef) t := by
  induction t generalizing r with
  | nil => simp [dedupeGo]
  | cons x t ih =>
    simp only [List.foldl]
    by_cases h : jsEq ((r.getLast?).getD .undef) x = true
    · rw [if_pos h, ih]
      simp [dedupeGo, h]
    · rw [if_neg h]
      have hb : jsEq ((r.getLast?).getD .undef) x = false := by
        simpa using h
      cases x with
      | arr xs =>
        show List.foldl _ (r ++ xs) t = _
        rw [ih]
        cases xs with
        | nil => simp [dedupeGo, hb]
        | cons y ys =>
          have hlast : ((r ++ y :: ys).getLast?).getD JVal.undef
              = ((((y :: ys) : List JVal).getLast?).getD
                  ((r.getLast?).getD JVal.undef)) := by
            rw [List.getLast?_append_cons]
            cases hgl : (((y :: ys) : List JVal)).getLast? with
            | none => simp [List.getLast?] at hgl
            | some v => rfl
          rw [hlast]
          simp [dedupeGo, hb, List.append_assoc]
      | undef =>
        show List.foldl _ (r ++ [JVal.undef]) t = _
        rw [ih, dedupeGo_cons_nonArr (by rfl), if_neg (by simp [hb])]
        simp [List.getLast?_concat, List.append_assoc]
      | null =>
        show List.foldl _ (r ++ [JVal.null]) t = _
        rw [ih, dedupeGo_cons_nonArr (by rfl), if_neg (by simp [hb])]
        simp [List.getLast?_concat, List.append_assoc]
      | bool b =>
        show List.foldl _ (r ++ [JVal.bool b]) t = _
        rw [ih, dedupeGo_cons_nonArr (by rfl), if_neg (by simp [hb])]
        simp [List.getLast?_concat, List.append_assoc]
      | num n =>
        show List.foldl _ (r ++ [JVal.num n]) t = _
        rw [ih, dedupeGo_cons_nonArr (by rfl), if_neg (by simp [hb])]
        simp [List.getLast?_concat, List.append_assoc]
      | nan =>
        show List.foldl _ (r ++ [JVal.nan]) t = _
        rw [ih, dedupeGo_cons_nonArr (by rfl), if_neg (by simp [hb])]
        simp [List.getLast?_concat, List.append_assoc]
      | str sv =>
        show List.foldl _ (r ++ [JVal.str sv]) t = _
        rw [ih, dedupeGo_cons_nonArr (by rfl), if_neg (by simp [hb])]
        simp [List.getLast?_concat, List.append_assoc]
      | obj fs =>
        show List.foldl _ (r ++ [JVal.obj fs]) t = _
        rw [ih, dedupeGo_cons_nonArr (by rfl), if_neg (by simp [hb])]
        simp [List.getLast?_concat, List.append_assoc]

theorem dedupeTabHistory_eq_go (l : List JVal) :
    dedupeTabHistory l = dedupeGo .undef l := by
  unfold dedupeTabHistory
  rw [dedupe_foldl_eq]
  simp

theorem dedupeGo_idem_nonArr :
    ∀ (l : List JVal), (∀ x ∈ l, isArr x = false) →
      ∀ a, dedupeGo a (dedupeGo a l) = dedupeGo a l := by
  intro l
  induction l with
  | nil => intro _ a; rfl
  | cons x t ih =>
    intro h a
    have hx : isArr x = false := h x (List.mem_cons_self _ _)
    have ht : ∀ y ∈ t, isArr y = false := fun y hy => h y (List.mem_cons_of_mem _ hy)
    rw [dedupeGo_cons_nonArr hx]
    by_cases hj : jsEq a x = true
    · rw [if_pos hj]
      exact ih ht a
    · rw [if_neg hj, dedupeGo_cons_nonArr hx, if_neg hj, ih ht x]

theorem dedupeGo_map_str (l : List String) (a : String) :
    dedupeGo (.str a) (l.map .str) = (collapseFrom a l).map .str := by
  induction l generalizing a with
  | nil => rfl
  | cons b t ih =>
    by_cases h : b = a
    · subst h
      simp [dedupeGo, collapseFrom, jsEq, ih]
    · have hab : ¬a = b := fun hh => h hh.symm
      have hb : (a == b) = false := by simp [hab]
      simp [dedupeGo, collapseFrom, jsEq, hb, h, ih]

theorem dedupe_map_str (l : List String) :
    dedupeTabHistory (l.map .str) = (collapseConsecutive l).map .str := by
  cases l with
  | nil => rfl
  | cons a t =>
    rw [dedupeTabHistory_eq_go]
    simp [dedupeGo, jsEq, collapseConsecutive, dedupeGo_map_str]

/-- C7: `dedupeTabHistory` collapses exactly the consecutive duplicate
identifiers of its input (fold left, appending an identifier only if it
differs from the last appended one) and preserves non-consecutive repeats;
for input `[a, a, b, b, b, a]` the output is `[a, b, a]`. -/
theorem dedupeTabHistory_dedupe_law :
    (∀ l : List String,
      dedupeTabHistory (l.map .str) = (collapseConsecutive l).map .str) ∧
    (∀ a b : String, a ≠ b →
      dedupeTabHistory [.str a, .str a, .str b, .str b, .str b, .str a]
        = [.str a, .str b, .str a]) := by
  constructor
  · exact dedupe_map_str
  · intro a b h
    have hmap := dedupe_map_str [a, a, b, b, b, a]
    simp only [List.map] at hmap
    rw [hmap]
    have hba : b ≠ a := fun hh => h hh.symm
    simp [collapseConsecutive, collapseFrom, h, hba]

/-- Witness for C7 at concrete identifiers. -/
theorem dedupeTabHistory_dedupe_law_witness :
    ("a" : String) ≠ "b" ∧
      dedupeTabHistory [.str "a", .str "a", .str "b", .str "b", .str "b", .str "a"]
        = [.str "a", .str "b", .str "a"] :=
  ⟨by decide, dedupeTabHistory_dedupe_law.2 "a" "b" (by decide)⟩

/-- C10: `dedupeTabHistory` is idempotent on identifier lists — for every
tab history whose entries are identifiers (strings or numbers),
deduplicating an already deduplicated history changes nothing.  (At an
array-valued entry `concat` spreads the elements, which can create a fresh
consecutive duplicate the first pass never compared, so idempotence is
about identifier entries.) -/
theorem dedupeTabHistory_idempotent :
    ∀ xs : List JVal, (∀ x ∈ xs, isIdentifier x = true) →
      dedupeTabHistory (dedupeTabHistory xs) = dedupeTabHistory xs := by
  intro xs h
  have h' : ∀ x ∈ xs, isArr x = false := by
    intro x hx
    have hi := h x hx
    cases x <;> first | rfl | simp [isIdentifier] at hi
  rw [dedupeTabHistory_eq_go, dedupeTabHistory_eq_go]
  exact dedupeGo_idem_nonArr xs h' (.undef : JVal)

/-- Witness for C10 at a concrete identifier history. -/
theorem dedupeTabHistory_idempotent_witness :
    (∀ x ∈ [JVal.str "a", JVal.str "a", JVal.num 1], isIdentifier x = true) ∧
    dedupeTabHistory (dedupeTabHistory [JVal.str "a", JVal.str "a", JVal.num 1])
      = dedupeTabHistory [JVal.str "a", JVal.str "a", JVal.num 1] :=
  ⟨by decide, dedupeTabHistory_idempotent [JVal.str "a", JVal.str "a", JVal.num 1]
    (by decide)⟩

/-- C3: if the legacy store key is absent, or its value does not parse as
JSON, or it parses without a truthy `sqlLab` sub-object, the returned
snapshot is identical to the one produced with no legacy blob at all, and
no exception from reading or parsing the legacy store propagates or
prevents assembly of the server-derived state. -/
theorem legacy_failure_noop :
    (∀ (a : Args) (now : Int),
      getInitialState a (some (.error ())) now = getInitialState a none now) ∧
    (∀ (a : Args) (now : Int) (v : JVal),
      (getProp v "sqlLab" = .error () ∨
        ∃ s, getProp v "sqlLab" = .ok s ∧ truthy s = false) →
      getInitialState a (some (.ok v)) now = getInitialState a none now) := by
  constructor
  · intro a now
    rfl
  · intro a now v hv
    unfold getInitialState
    cases hs : serverStage a with
    | error e => rfl
    | ok st =>
      have hst : legacyStage (some (.ok v)) st = legacyStage none st := by
        rcases hv with h | ⟨s, h1, h2⟩
        · simp [legacyStage, h]
        · simp [legacyStage, h1, h2]
      dsimp only
      rw [hst]

/-- Witness for C3: a parsed legacy value with no `sqlLab` sub-object
leaves the snapshot untouched. -/
theorem legacy_failure_noop_witness :
    (getProp (.num 5) "sqlLab" = .error () ∨
      ∃ s, getProp (.num 5) "sqlLab" = .ok s ∧ truthy s = false) ∧
      getInitialState argsOneTab (some (.ok (.num 5))) 0
        = getInitialState argsOneTab none 0 :=
  ⟨Or.inr ⟨.undef, rfl, rfl⟩,
    legacy_failure_noop.2 argsOneTab 0 (.num 5) (Or.inr ⟨.undef, rfl, rfl⟩)⟩

/-- C1: legacy precedence in the editor merge — server fields not mentioned
by the legacy record survive, fields the legacy record supplies win, a
matching unsaved-editor record overwrites afterwards, the merged record is
tagged `inLocalStorage = true` and `loaded = true`, and for the server
editor `{id: '1', name: 'Old'}` merged with the legacy editor
`{id: '1', name: 'New', sql: 'SELECT 1'}` the result has `name: 'New'`,
`sql: 'SELECT 1'`, `inLocalStorage: true`. -/
theorem legacy_editor_precedence :
    (∀ (srv qe uns : List (String × JVal)) (k : String),
      k ≠ "name" → k ≠ "inLocalStorage" → k ≠ "loaded" →
      jsEq (getPropD (.obj uns) "id") (getPropD (.obj qe) "id") = false →
      lookupLast qe k = none →
      lookup (mergeLegacyEditorFields (.obj uns) (.obj srv) (.obj qe)) k
        = lookupLast srv k) ∧
    (∀ (srv qe uns : List (String × JVal)) (k : String) (v : JVal),
      k ≠ "name" → k ≠ "inLocalStorage" → k ≠ "loaded" →
      jsEq (getPropD (.obj uns) "id") (getPropD (.obj qe) "id") = false →
      lookupLast qe k = some v →
      lookup (mergeLegacyEditorFields (.obj uns) (.obj srv) (.obj qe)) k = some v) ∧
    (∀ (srv qe uns : List (String × JVal)) (k : String) (v : JVal),
      k ≠ "inLocalStorage" → k ≠ "loaded" →
      jsEq (getPropD (.obj uns) "id") (getPropD (.obj qe) "id") = true →
      lookupLast uns k = some v →
      lookup (mergeLegacyEditorFields (.obj uns) (.obj srv) (.obj qe)) k = some v) ∧
    (∀ (unsaved existing qe : JVal),
      lookup (mergeLegacyEditorFields unsaved existing qe) "inLocalStorage"
          = some (.bool true) ∧
      lookup (mergeLegacyEditorFields unsaved existing qe) "loaded"
          = some (.bool true)) ∧
    ((getInitialState argsOneTab (some (.ok legacyPrecedence)) 0).1.toOption.map
        (fun s => s.sqlLab.queryEditors.map
          (fun e => (getPropD e "name", getPropD e "sql", getPropD e "inLocalStorage")))
      = some [(.str "New", .str "SELECT 1", .bool true)]) := by
  refine ⟨?_, ?_, ?_, ?_, rfl⟩
  · intro srv qe uns k hn hi hl hjs hqe
    simp only [mergeLegacyEditorFields, ownEnumerable, hjs, Bool.false_eq_true, if_false]
    rw [lookup_setField, if_neg (Ne.symm hl), lookup_setField, if_neg (Ne.symm hi),
      lookup_setField, if_neg (Ne.symm hn), lookup_spreadInto, hqe, lookup_spreadNil]
  · intro srv qe uns k v hn hi hl hjs hqe
    simp only [mergeLegacyEditorFields, ownEnumerable, hjs, Bool.false_eq_true, if_false]
    rw [lookup_setField, if_neg (Ne.symm hl), lookup_setField, if_neg (Ne.symm hi),
      lookup_setField, if_neg (Ne.symm hn), lookup_spreadInto, hqe]
  · intro srv qe uns k v hi hl hjs huns
    simp only [mergeLegacyEditorFields, ownEnumerable, hjs, if_true]
    rw [lookup_setField, if_neg (Ne.symm hl), lookup_setField, if_neg (Ne.symm hi),
      lookup_spreadInto, huns]
  · intro unsaved existing qe
    constructor
    · simp only [mergeLegacyEditorFields]
      rw [lookup_setField,
        if_neg (by decide : ¬("loaded" : String) = "inLocalStorage"),
        lookup_setField, if_pos rfl]
    · simp only [mergeLegacyEditorFields]
      rw [lookup_setField, if_pos rfl]

/-- Witness for C1: the legacy `sql` field wins at a concrete merge. -/
theorem legacy_editor_precedence_witness :
    ("sql" : String) ≠ "name" ∧
      jsEq (getPropD (JVal.obj []) "id")
          (getPropD (JVal.obj [("id", .str "1"), ("sql", .str "SELECT 1")]) "id") = false ∧
      lookupLast [("id", JVal.str "1"), ("sql", JVal.str "SELECT 1")] "sql"
          = some (.str "SELECT 1") ∧
      lookup (mergeLegacyEditorFields (.obj [])
          (.obj [("id", .str "1"), ("name", .str "Old")])
          (.obj [("id", .str "1"), ("sql", .str "SELECT 1")])) "sql"
        = some (.str "SELECT 1") :=
  ⟨by decide, rfl, rfl,
    legacy_editor_precedence.2.1 [("id", .str "1"), ("name", .str "Old")]
      [("id", .str "1"), ("sql", .str "SELECT 1")] [] "sql" (.str "SELECT 1")
      (by decide) (by decide) (by decide) rfl rfl⟩

/-- Counterexample for C4: the legacy editor supplies `name: 'N'`, yet the
merged name is the truthy `title: 'T'` — the alias is applied on
truthiness of `title`, not on absence of `name`. -/
theorem name_alias_counterexample :
    (getInitialState argsOneTab (some (.ok legacyTitleAndName)) 0).1.toOption.map
        (fun s => s.sqlLab.queryEditors.map (fun e => getPropD e "name"))
      = some [.str "T"] ∧
    (getInitialState argsOneTab (some (.ok legacyTitleAndName)) 0).1.toOption.map
        (fun s => s.sqlLab.queryEditors.map (fun e => getPropD e "name"))
      ≠ some [.str "N"] := by
  constructor
  · rfl
  · intro h
    rw [show (getInitialState argsOneTab (some (.ok legacyTitleAndName)) 0).1.toOption.map
        (fun s => s.sqlLab.queryEditors.map (fun e => getPropD e "name"))
      = some [.str "T"] from rfl] at h
    simp at h

/-- C4 amended: in the legacy editor merge (away from a matching unsaved
editor) the merged `name` is `qe.title || qe.name` — the legacy `title` is
used whenever it is truthy, even when the legacy record supplies a `name`;
only otherwise is the legacy `name` used. -/
theorem name_alias_amended :
    ∀ (unsaved existing qe : JVal),
      jsEq (getPropD unsaved "id") (getPropD qe "id") = false →
      lookup (mergeLegacyEditorFields unsaved existing qe) "name"
        = some (jsOr (getPropD qe "title") (getPropD qe "name")) := by
  intro unsaved existing qe hjs
  simp only [mergeLegacyEditorFields, hjs, Bool.false_eq_true, if_false]
  rw [lookup_setField, if_neg (by decide : ¬("loaded" : String) = "name"),
    lookup_setField, if_neg (by decide : ¬("inLocalStorage" : String) = "name"),
    lookup_setField, if_pos rfl]

/-- Witness for C4's amended claim at a concrete editor carrying both a
truthy `title` and a `name`. -/
theorem name_alias_amended_witness :
    jsEq (getPropD (JVal.obj []) "id")
        (getPropD (JVal.obj [("id", .str "1"), ("title", .str "T"), ("name", .str "N")]) "id")
      = false ∧
    lookup (mergeLegacyEditorFields (.obj []) (.obj [])
        (.obj [("id", .str "1"), ("title", .str "T"), ("name", .str "N")])) "name"
      = some (.str "T") :=
  ⟨rfl,
    name_alias_amended (.obj []) (.obj [])
      (.obj [("id", .str "1"), ("title", .str "T"), ("name", .str "N")]) rfl⟩

/-- C6: timestamp coercion — a present, truthy `startDttm`/`endDttm` is
replaced by its numeric value; an absent or falsy one is left untouched (a
missing key stays missing, nothing is coerced to zero); the coerced query
list is exactly the keywise image of the working queries; and the string
timestamp `"1690000000000"` becomes the number `1690000000000` while a
query without the key keeps no key. -/
theorem timestamp_coercion :
    (∀ q : JVal,
      truthy (getPropD q "startDttm") = true →
      lookup (coerceQueryFields q) "startDttm"
        = some (toNumber (getPropD q "startDttm"))) ∧
    (∀ q : JVal,
      truthy (getPropD q "startDttm") = false →
      lookup (coerceQueryFields q) "startDttm"
        = lookupLast (ownEnumerable q) "startDttm") ∧
    (∀ q : JVal,
      truthy (getPropD q "endDttm") = true →
      lookup (coerceQueryFields q) "endDttm"
        = some (toNumber (getPropD q "endDttm"))) ∧
    (∀ q : JVal,
      truthy (getPropD q "endDttm") = false →
      lookup (coerceQueryFields q) "endDttm"
        = lookupLast (ownEnumerable q) "endDttm") ∧
    (∀ (qs m : List (String × JVal)),
      coerceQueries qs = .ok m →
      m = qs.map (fun p => (p.1, JVal.obj (coerceQueryFields p.2)))) ∧
    ((getInitialState argsTimestamps none 0).1.toOption.map
        (fun s => s.sqlLab.queries)
      = some [("q1", .obj [("id", .str "q1"), ("startDttm", .num 1690000000000)]),
              ("q2", .obj [("id", .str "q2")])]) := by
  refine ⟨?_, ?_, ?_, ?_, ?_, rfl⟩
  · intro q hs
    simp only [coerceQueryFields, hs, if_true]
    by_cases he : truthy (getPropD q "endDttm") = true
    · simp only [he, if_true]
      rw [lookup_setField, if_neg (by decide : ¬("endDttm" : String) = "startDttm"),
        lookup_setField, if_pos rfl]
    · have he' : truthy (getPropD q "endDttm") = false := by simpa using he
      simp only [he', Bool.false_eq_true, if_false]
      rw [lookup_setField, if_pos rfl]
  · intro q hs
    simp only [coerceQueryFields, hs, Bool.false_eq_true, if_false]
    by_cases he : truthy (getPropD q "endDttm") = true
    · simp only [he, if_true]
      rw [lookup_setField, if_neg (by decide : ¬("endDttm" : String) = "startDttm"),
        lookup_spreadNil]
    · have he' : truthy (getPropD q "endDttm") = false := by simpa using he
      simp only [he', Bool.false_eq_true, if_false]
      rw [lookup_spreadNil]
  · intro q he
    simp only [coerceQueryFields, he, if_true]
    by_cases hs : truthy (getPropD q "startDttm") = true <;>
      simp only [hs, if_true, Bool.false_eq_true, if_false] <;>
      rw [lookup_setField, if_pos rfl]
  · intro q he
    simp only [coerceQueryFields, he, Bool.false_eq_true, if_false]
    by_cases hs : truthy (getPropD q "startDttm") = true
    · simp only [hs, if_true]
      rw [lookup_setField, if_neg (by decide : ¬("startDttm" : String) = "endDttm"),
        lookup_spreadNil]
    · have hs' : truthy (getPropD q "startDttm") = false := by simpa using hs
      simp only [hs', Bool.false_eq_true, if_false]
      rw [lookup_spreadNil]
  · intro qs
    induction qs with
    | nil =>
      intro m hm
      simp only [coerceQueries, Except.ok.injEq] at hm
      subst hm
      rfl
    | cons p rest ih =>
      intro m hm
      obtain ⟨k, q⟩ := p
      cases q <;>
        simp only [coerceQueries, coerceQuery, bind, Except.bind] at hm <;>
        try exact absurd hm (by simp)
      all_goals {
        cases hr : coerceQueries rest with
        | error e => rw [hr] at hm; exact absurd hm (by simp)
        | ok rest' =>
          rw [hr] at hm
          simp only [pure, Except.pure, Except.ok.injEq] at hm
          subst hm
          simp [ih rest' hr] }

/-- Witness for C6 at a concrete query with a string timestamp. -/
theorem timestamp_coercion_witness :
    truthy (getPropD (JVal.obj [("startDttm", .str "1690000000000")]) "startDttm") = true ∧
    lookup (coerceQueryFields (.obj [("startDttm", .str "1690000000000")])) "startDttm"
      = some (.num 1690000000000) :=
  ⟨rfl, timestamp_coercion.1 (.obj [("startDttm", .str "1690000000000")]) rfl⟩

/-! ### Legacy query merge -/

theorem key_ne_of_forall_index {rest : List JVal} {k0 : String}
    (h : ∀ j, j < rest.length → jsToString (getPropD (rest.getD j .undef) "id") ≠ k0) :
    ∀ q ∈ rest, jsToString (getPropD q "id") ≠ k0 := by
  intro q hq
  obtain ⟨j, hj, rfl⟩ := List.mem_iff_getElem.mp hq
  have hh := h j hj
  rwa [List.getD_eq_getElem _ _ hj] at hh

theorem mergeQueriesLoop_spec :
    ∀ (vals : List JVal) (m : List (String × JVal)),
      (∀ q ∈ vals, nonNullish q = true) →
      ∃ res, mergeQueriesLoop vals m = .ok res ∧
        (∀ k, (∀ q ∈ vals, jsToString (getPropD q "id") ≠ k) →
          lookup res k = lookup m k) ∧
        (∀ i, i < vals.length →
          (∀ j, i < j → j < vals.length →
            jsToString (getPropD (vals.getD j .undef) "id")
              ≠ jsToString (getPropD (vals.getD i .undef) "id")) →
          lookup res (jsToString (getPropD (vals.getD i .undef) "id"))
            = some (.obj (setField (spreadInto [] (ownEnumerable (vals.getD i .undef)))
                "inLocalStorage" (.bool true)))) := by
  intro vals
  induction vals with
  | nil =>
    intro m _
    refine ⟨m, rfl, fun k _ => rfl, ?_⟩
    intro i hi
    exact absurd hi (by simp)
  | cons q rest ih =>
    intro m h
    have hq : nonNullish q = true := h q (List.mem_cons_self _ _)
    have hrest : ∀ q' ∈ rest, nonNullish q' = true :=
      fun q' hq' => h q' (List.mem_cons_of_mem _ hq')
    set key0 := jsToString (getPropD q "id") with hkey0
    set val0 : JVal :=
      .obj (setField (spreadInto [] (ownEnumerable q)) "inLocalStorage" (.bool true))
      with hval0
    obtain ⟨res, hres, hunt, hidx⟩ := ih (setField m key0 val0) hrest
    refine ⟨res, ?_, ?_, ?_⟩
    · simp [mergeQueriesLoop, hq, hres, hkey0, hval0]
    · intro k hk
      have h1 : lookup res k = lookup (setField m key0 val0) k :=
        hunt k (fun q' hq' => hk q' (List.mem_cons_of_mem _ hq'))
      rw [h1, lookup_setField, if_neg (hk q (List.mem_cons_self _ _))]
    · intro i hi hj
      cases i with
      | zero =>
        have hne : ∀ q' ∈ rest, jsToString (getPropD q' "id") ≠ key0 := by
          apply key_ne_of_forall_index
          intro j hjlen
          have := hj (j + 1) (Nat.succ_pos _) (by simpa using Nat.succ_lt_succ hjlen)
          simpa [List.getD_cons_succ] using this
        have h1 : lookup res key0 = lookup (setField m key0 val0) key0 := hunt key0 hne
        rw [show ((q :: rest).getD 0 .undef) = q from rfl]
        rw [h1, lookup_setField, if_pos rfl]
      | succ i =>
        have hshift : ∀ j, i < j → j < rest.length →
            jsToString (getPropD (rest.getD j .undef) "id")
              ≠ jsToString (getPropD (rest.getD i .undef) "id") := by
          intro j h1 h2
          have := hj (j + 1) (Nat.succ_lt_succ h1) (by simpa using Nat.succ_lt_succ h2)
          simpa [List.getD_cons_succ] using this
        have := hidx i (by simpa using Nat.lt_of_succ_lt_succ (by simpa using hi)) hshift
        simpa [List.getD_cons_succ] using this

/-- C8: for every legacy query value, the working query mapping at that
query's identifier becomes exactly the legacy query's fields plus
`inLocalStorage = true`; entries at other identifiers are untouched, and a
server query sharing the identifier is fully overwritten with none of its
fields preserved. -/
theorem legacy_query_merge :
    (∀ (vals : List JVal) (m : List (String × JVal)),
      (∀ q ∈ vals, nonNullish q = true) →
      ∃ res, mergeQueriesLoop vals m = .ok res ∧
        (∀ k, (∀ q ∈ vals, jsToString (getPropD q "id") ≠ k) →
          lookup res k = lookup m k) ∧
        (∀ i, i < vals.length →
          (∀ j, i < j → j < vals.length →
            jsToString (getPropD (vals.getD j .undef) "id")
              ≠ jsToString (getPropD (vals.getD i .undef) "id")) →
          lookup res (jsToString (getPropD (vals.getD i .undef) "id"))
            = some (.obj (setField (spreadInto [] (ownEnumerable (vals.getD i .undef)))
                "inLocalStorage" (.bool true))))) ∧
    (∀ (q : JVal) (k : String),
      k ≠ "inLocalStorage" →
      lookupLast (ownEnumerable q) k = none →
      lookup (setField (spreadInto [] (ownEnumerable q)) "inLocalStorage" (.bool true)) k
        = none) ∧
    ((getInitialState argsServerQuery (some (.ok legacyQueryOverwrite)) 0).1.toOption.map
        (fun s => s.sqlLab.queries.map
          (fun p => (p.1, getPropD p.2 "a", getPropD p.2 "b", getPropD p.2 "inLocalStorage")))
      = some [("q1", .undef, .num 2, .bool true)]) := by
  refine ⟨mergeQueriesLoop_spec, ?_, rfl⟩
  intro q k hk hq
  rw [lookup_setField, if_neg (Ne.symm hk), lookup_spreadNil, hq]

/-- Witness for C8: the server query's field `a` is absent from the merged
record built from the legacy query. -/
theorem legacy_query_merge_witness :
    ("a" : String) ≠ "inLocalStorage" ∧
    lookupLast (ownEnumerable (JVal.obj [("id", .str "q1"), ("b", .num 2)])) "a" = none ∧
    lookup (setField (spreadInto []
        (ownEnumerable (JVal.obj [("id", .str "q1"), ("b", .num 2)])))
        "inLocalStorage" (.bool true)) "a" = none :=
  ⟨by decide, rfl,
    legacy_query_merge.2.1 (.obj [("id", .str "q1"), ("b", .num 2)]) "a" (by decide) rfl⟩

/-! ### Legacy table merge: single-expansion bookkeeping -/

theorem setEq_trans {a b c : JVal} (h1 : setEq a b = true) (h2 : setEq b c = true) :
    setEq a c = true := by
  cases a <;> cases b <;> cases c <;> simp_all [setEq]

theorem tableKey_ne_of_forall_index {rest : List JVal} {k0 : String}
    (h : ∀ j, j < rest.length → tableKey (rest.getD j .undef) ≠ k0) :
    ∀ t ∈ rest, tableKey t ≠ k0 := by
  intro t ht
  obtain ⟨j, hj, rfl⟩ := List.mem_iff_getElem.mp ht
  have hh := h j hj
  rwa [List.getD_eq_getElem _ _ hj] at hh

theorem mergeTablesLoop_spec (orig : List (String × JVal)) :
    ∀ (l pre seen : List JVal) (merged : List (String × JVal)),
      (∀ t ∈ l, nonNullish t = true) →
      (∀ x, seen.any (fun y => setEq y x) = pre.any (fun t => setEq (tableQeid t) x)) →
      ∃ res, mergeTablesLoop orig seen l merged = some res ∧
        (∀ k, (∀ t ∈ l, tableKey t ≠ k) → lookup res k = lookup merged k) ∧
        (∀ i, i < l.length →
          (∀ j, i < j → j < l.length →
            tableKey (l.getD j .undef) ≠ tableKey (l.getD i .undef)) →
          lookup res (tableKey (l.getD i .undef))
            = some (mergedTable orig (l.getD i .undef)
                (!((pre ++ l.take i).any
                  (fun t => setEq (tableQeid t) (tableQeid (l.getD i .undef))))))) := by
  intro l
  induction l with
  | nil =>
    intro pre seen merged _ _
    refine ⟨merged, rfl, fun k _ => rfl, ?_⟩
    intro i hi
    exact absurd hi (by simp)
  | cons t rest ih =>
    intro pre seen merged h hseen
    have ht : nonNullish t = true := h t (List.mem_cons_self _ _)
    have hrest : ∀ t' ∈ rest, nonNullish t' = true :=
      fun t' ht' => h t' (List.mem_cons_of_mem _ ht')
    have he : seen.any (fun y => setEq y (tableQeid t))
        = pre.any (fun t' => setEq (tableQeid t') (tableQeid t)) := hseen (tableQeid t)
    set E := !(pre.any (fun t' => setEq (tableQeid t') (tableQeid t))) with hE
    have hseen' : ∀ x,
        (if E then tableQeid t :: seen else seen).any (fun y => setEq y x)
          = (pre ++ [t]).any (fun t' => setEq (tableQeid t') x) := by
      intro x
      by_cases hEt : E = true
      · rw [if_pos hEt]
        simp only [List.any_cons, List.any_append, List.any_cons, List.any_nil,
          Bool.or_false, hseen x]
        exact Bool.or_comm _ _
      · rw [if_neg hEt]
        have hEf : E = false := by simpa using hEt
        have hpre : pre.any (fun t' => setEq (tableQeid t') (tableQeid t)) = true := by
          have hx := hEf
          rw [hE] at hx
          simpa using hx
        obtain ⟨u, hu, hsu⟩ := List.any_eq_true.mp hpre
        simp only [List.any_append, List.any_cons, List.any_nil, Bool.or_false, hseen x]
        by_cases hx : setEq (tableQeid t) x = true
        · have : pre.any (fun t' => setEq (tableQeid t') x) = true :=
            List.any_eq_true.mpr ⟨u, hu, setEq_trans hsu hx⟩
          simp [this, hx]
        · have hx' : setEq (tableQeid t) x = false := by simpa using hx
          simp [hx']
    obtain ⟨res, hres, hunt, hidx⟩ :=
      ih (pre ++ [t]) (if E then tableQeid t :: seen else seen)
        (setField merged (tableKey t) (mergedTable orig t E)) hrest hseen'
    refine ⟨res, ?_, ?_, ?_⟩
    · simp only [mergeTablesLoop, ht, if_true]
      rw [he]
      exact hres
    · intro k hk
      have h1 := hunt k (fun t' ht' => hk t' (List.mem_cons_of_mem _ ht'))
      rw [h1, lookup_setField, if_neg (hk t (List.mem_cons_self _ _))]
    · intro i hi hj
      cases i with
      | zero =>
        have hne : ∀ t' ∈ rest, tableKey t' ≠ tableKey t := by
          apply tableKey_ne_of_forall_index
          intro j hjlen
          have hh := hj (j + 1) (Nat.succ_pos _) (by simpa using Nat.succ_lt_succ hjlen)
          simpa [List.getD_cons_succ] using hh
        have h1 := hunt (tableKey t) hne
        rw [show ((t :: rest).getD 0 .undef) = t from rfl]
        rw [h1, lookup_setField, if_pos rfl]
        simp [hE]
      | succ i =>
        have hshift : ∀ j, i < j → j < rest.length →
            tableKey (rest.getD j .undef) ≠ tableKey (rest.getD i .undef) := by
          intro j h1 h2
          have hh := hj (j + 1) (Nat.succ_lt_succ h1) (by simpa using Nat.succ_lt_succ h2)
          simpa [List.getD_cons_succ] using hh
        have hh := hidx i (by simpa using Nat.lt_of_succ_lt_succ (by simpa using hi)) hshift
        simp only [List.getD_cons_succ, List.take_succ_cons]
        rw [show pre ++ t :: rest.take i = (pre ++ [t]) ++ rest.take i by
          simp [List.append_assoc]]
        exact hh

theorem mem_take_of_getD {l : List JVal} {i j : Nat} (hij : i < j) (hil : i < l.length) :
    l.getD i .undef ∈ l.take j := by
  induction l generalizing i j with
  | nil => simp at hil
  | cons a t ih =>
    cases j with
    | zero => omega
    | succ j =>
      cases i with
      | zero => simp [List.take_succ_cons]
      | succ i =>
        simp only [List.getD_cons_succ, List.take_succ_cons]
        exact List.mem_cons_of_mem _ (ih (Nat.lt_of_succ_lt_succ hij) (by simpa using hil))

/-- Counterexample for C2: with two server-derived tables of the same
owning editor, both `expanded: true`, and no legacy blob, the reconciled
output keeps both expanded — the single-expansion invariant does not hold
over the whole output. -/
theorem single_expansion_counterexample :
    (getInitialState argsTwoExpanded none 0).1.toOption.map
        (fun s => atMostOneExpandedPerEditor s.sqlLab.tables) = some false ∧
    (getInitialState argsTwoExpanded none 0).1.toOption.map
        (fun s => s.sqlLab.tables.map
          (fun t => (getPropD t "queryEditorId", getPropD t "expanded")))
      = some [(.str "1", .bool true), (.str "1", .bool true)] :=
  ⟨rfl, rfl⟩

/-- C2 amended: expansion is reassigned only for the tables processed in
the legacy-merge stage — there, the `i`-th legacy table is stored with
`expanded` true exactly when no earlier legacy table has a
SameValueZero-equal `queryEditorId` (so within each editor's group the
first table in the legacy sequence is expanded and its later siblings are
collapsed, regardless of their original flags); in particular, of three
legacy tables all `expanded: true` sharing a `queryEditorId`, exactly the
first in input order remains expanded. -/
theorem single_expansion_amended :
    (∀ (orig : List (String × JVal)) (l : List JVal),
      (∀ t ∈ l, nonNullish t = true) →
      ∃ res, mergeTablesLoop orig [] l orig = some res ∧
        (∀ i, i < l.length →
          (∀ j, i < j → j < l.length →
            tableKey (l.getD j .undef) ≠ tableKey (l.getD i .undef)) →
          lookup res (tableKey (l.getD i .undef))
            = some (mergedTable orig (l.getD i .undef) (expandedFlagSpec l i)))) ∧
    (∀ (l : List JVal) (i j : Nat), i < j → j < l.length →
      setEq (tableQeid (l.getD i .undef)) (tableQeid (l.getD j .undef)) = true →
      expandedFlagSpec l j = false) ∧
    ((getInitialState argsOneTab (some (.ok legacyThreeExpanded)) 0).1.toOption.map
        (fun s => s.sqlLab.tables.map
          (fun t => (getPropD t "id", getPropD t "expanded")))
      = some [(.num 10, .bool true), (.num 11, .bool false), (.num 12, .bool false)]) := by
  refine ⟨?_, ?_, rfl⟩
  · intro orig l h
    obtain ⟨res, hres, _, hidx⟩ :=
      mergeTablesLoop_spec orig l [] [] orig h (fun x => rfl)
    refine ⟨res, hres, ?_⟩
    intro i hi hj
    have hh := hidx i hi hj
    simpa [expandedFlagSpec] using hh
  · intro l i j hij hj hset
    have hilen : i < l.length := Nat.lt_trans hij hj
    have hmem : l.getD i .undef ∈ l.take j := mem_take_of_getD hij hilen
    have hany : (l.take j).any
        (fun t => setEq (tableQeid t) (tableQeid (l.getD j .undef))) = true :=
      List.any_eq_true.mpr ⟨_, hmem, hset⟩
    unfold expandedFlagSpec
    rw [hany]
    rfl

/-- Witness for C2's amended claim: of two legacy tables sharing an owning
editor, the second is assigned `expanded = false`, and the merge stores
exactly the specified records at distinct keys. -/
theorem single_expansion_amended_witness :
    (0 : Nat) < 1 ∧
    1 < ([JVal.obj [("id", .num 1), ("queryEditorId", .str "e"), ("expanded", .bool true)],
          JVal.obj [("id", .num 2), ("queryEditorId", .str "e"), ("expanded", .bool true)]]
        : List JVal).length ∧
    setEq (tableQeid (([JVal.obj [("id", .num 1), ("queryEditorId", .str "e"), ("expanded", .bool true)],
          JVal.obj [("id", .num 2), ("queryEditorId", .str "e"), ("expanded", .bool true)]]
        : List JVal).getD 0 .undef))
        (tableQeid (([JVal.obj [("id", .num 1), ("queryEditorId", .str "e"), ("expanded", .bool true)],
          JVal.obj [("id", .num 2), ("queryEditorId", .str "e"), ("expanded", .bool true)]]
        : List JVal).getD 1 .undef)) = true ∧
    expandedFlagSpec
        [JVal.obj [("id", .num 1), ("queryEditorId", .str "e"), ("expanded", .bool true)],
         JVal.obj [("id", .num 2), ("queryEditorId", .str "e"), ("expanded", .bool true)]] 1
      = false :=
  ⟨Nat.zero_lt_one, by decide, rfl,
    single_expansion_amended.2.1
      [JVal.obj [("id", .num 1), ("queryEditorId", .str "e"), ("expanded", .bool true)],
       JVal.obj [("id", .num 2), ("queryEditorId", .str "e"), ("expanded", .bool true)]]
      0 1 Nat.zero_lt_one (by decide) rfl⟩

/-! ### Success characterizations of the monadic stages -/

theorem bind_ok {α β : Type} {x : Except Unit α} {f : α → Except Unit β} {b : β}
    (h : (x >>= f) = .ok b) : ∃ a, x = .ok a ∧ f a = .ok b := by
  cases x with
  | error e => simp [Bind.bind, Except.bind] at h
  | ok a => exact ⟨a, rfl, by simpa [Bind.bind, Except.bind] using h⟩

theorem getProp_ok {v : JVal} (h : nonNullish v = true) (k : String) :
    getProp v k = .ok (getPropD v k) := by
  cases v <;> first
    | rfl
    | simp [nonNullish] at h

theorem jsToStringM_ok {v : JVal} (h : nonNullish v = true) :
    jsToStringM v = .ok (jsToString v) := by
  cases v <;> first
    | rfl
    | simp [nonNullish] at h

theorem buildQueryEditor_noILS (activeTab : JVal) (idStr : String) :
    getPropD (buildQueryEditor activeTab idStr) "inLocalStorage" = .undef := rfl

theorem dummyEditor_noILS (d l : JVal) (idStr : String) (label : JVal) :
    getPropD (.obj (dummyEditorFields (defaultQueryEditor d l) idStr label))
      "inLocalStorage" = .undef := rfl

theorem serverStageEditors_noILS (activeTab d l : JVal) :
    ∀ (entries : List JVal) (m res : List (String × JVal)),
      serverStageEditors activeTab (defaultQueryEditor d l) entries m = .ok res →
      (∀ p ∈ m, getPropD p.2 "inLocalStorage" = .undef) →
      ∀ p ∈ res, getPropD p.2 "inLocalStorage" = .undef := by
  intro entries
  induction entries with
  | nil =>
    intro m res h hm
    simp only [serverStageEditors, Except.ok.injEq] at h
    subst h
    exact hm
  | cons e rest ih =>
    intro m res h hm
    simp only [serverStageEditors] at h
    obtain ⟨id, h1, h⟩ := bind_ok h
    obtain ⟨idStr, h2, h⟩ := bind_ok h
    refine ih _ res h ?_
    intro p hp
    rcases mem_setField hp with hp1 | hp1
    · subst hp1
      dsimp only
      by_cases hc : (truthy activeTab && jsEq (getPropD activeTab "id") id) = true
      · simp only [hc, if_true]
        exact buildQueryEditor_noILS activeTab idStr
      · have hc' : (truthy activeTab && jsEq (getPropD activeTab "id") id) = false := by
          simpa using hc
        simp only [hc', Bool.false_eq_true, if_false]
        exact dummyEditor_noILS d l idStr (getPropD e "label")
    · exact hm p hp1

theorem assemble_ok_editors {a : Args} {st : WorkState} {now : Int} {snap : Snapshot}
    (h : assemble a st now = .ok snap) :
    snap.sqlLab.queryEditors = st.queryEditors.map (fun p => p.2) := by
  unfold assemble at h
  obtain ⟨qs, hqs, h⟩ := bind_ok h
  simp only [pure, Except.pure, Except.ok.injEq] at h
  subst h
  rfl

theorem serverStage_editors_noILS {a : Args} {st : WorkState}
    (h : serverStage a = .ok st) :
    ∀ p ∈ st.queryEditors, getPropD p.2 "inLocalStorage" = .undef := by
  unfold serverStage at h
  obtain ⟨conf, h1, h⟩ := bind_ok h
  obtain ⟨limit, h2, h⟩ := bind_ok h
  obtain ⟨entries, h3, h⟩ := bind_ok h
  obtain ⟨qeMap, h4, h⟩ := bind_ok h
  obtain ⟨tabH, h5, h⟩ := bind_ok h
  obtain ⟨tbls, h6, h⟩ := bind_ok h
  simp only [pure, Except.pure, Except.ok.injEq] at h
  subst h
  intro p hp
  exact serverStageEditors_noILS a.active_tab a.defaultDbId limit entries [] qeMap h4
    (fun q hq => absurd hq (List.not_mem_nil _)) p hp


/-- C5: a parsed legacy blob whose `queryEditors` sequence is empty makes
the reducer delete the legacy store key and discard the legacy data: the
snapshot is identical to the no-legacy-blob one, the removal flag is set
(whenever the server stage reached the legacy stage at all), and no editor
of the returned snapshot is tagged `inLocalStorage`. -/
theorem legacy_migration_cleanup :
    ∀ (a : Args) (now : Int) (v : JVal),
      nonNullish v = true →
      truthy (getPropD v "sqlLab") = true →
      getPropD (getPropD v "sqlLab") "queryEditors" = .arr [] →
      ((getInitialState a (some (.ok v)) now).1 = (getInitialState a none now).1 ∧
       (∀ st, serverStage a = .ok st → (getInitialState a (some (.ok v)) now).2 = true) ∧
       (∀ snap, (getInitialState a (some (.ok v)) now).1 = .ok snap →
         ∀ e ∈ snap.sqlLab.queryEditors, getPropD e "inLocalStorage" = .undef)) := by
  intro a now v hv hs hqe
  have hsl : getProp v "sqlLab" = .ok (getPropD v "sqlLab") := getProp_ok hv _
  have hstage : ∀ st, legacyStage (some (.ok v)) st = (st, true) := by
    intro st
    simp only [legacyStage, hsl, hs, if_true, hqe]
    rfl
  refine ⟨?_, ?_, ?_⟩
  · unfold getInitialState
    cases hs0 : serverStage a with
    | error e => rfl
    | ok st =>
      dsimp only
      rw [hstage st]
      rfl
  · intro st hst
    unfold getInitialState
    rw [hst]
    dsimp only
    rw [hstage st]
  · intro snap hsnap
    unfold getInitialState at hsnap
    cases hs0 : serverStage a with
    | error e =>
      rw [hs0] at hsnap
      exact absurd hsnap (by simp)
    | ok st =>
      rw [hs0] at hsnap
      dsimp only at hsnap
      rw [hstage st] at hsnap
      intro e he
      rw [assemble_ok_editors hsnap] at he
      obtain ⟨p, hp, rfl⟩ := List.mem_map.mp he
      exact serverStage_editors_noILS hs0 p hp

/-- Witness for C5 at the concrete migrated blob. -/
theorem legacy_migration_cleanup_witness :
    nonNullish legacyMigrated = true ∧
    truthy (getPropD legacyMigrated "sqlLab") = true ∧
    getPropD (getPropD legacyMigrated "sqlLab") "queryEditors" = .arr [] ∧
    (getInitialState argsOneTab (some (.ok legacyMigrated)) 0).1
      = (getInitialState argsOneTab none 0).1 :=
  ⟨rfl, rfl, rfl,
    (legacy_migration_cleanup argsOneTab 0 legacyMigrated rfl rfl rfl).1⟩

/-! ### No-fatal-error analysis -/

theorem mem_spreadInto_prop {P : String × JVal → Prop} :
    ∀ (extra base : List (String × JVal)),
      (∀ p ∈ base, P p) → (∀ p ∈ extra, P p) →
      ∀ p ∈ spreadInto base extra, P p := by
  intro extra
  induction extra with
  | nil => intro base hb _ p hp; exact hb p hp
  | cons q rest ih =>
    intro base hb he p hp
    have hstep : spreadInto base (q :: rest) = spreadInto (setField base q.1 q.2) rest := rfl
    rw [hstep] at hp
    refine ih (setField base q.1 q.2) ?_ (fun r hr => he r (List.mem_cons_of_mem _ hr)) p hp
    intro r hr
    rcases mem_setField hr with h1 | h1
    · subst h1
      exact he q (List.mem_cons_self _ _)
    · exact hb r h1

theorem mergeQueriesLoop_vals :
    ∀ (vals : List JVal) (m res : List (String × JVal)),
      (mergeQueriesLoop vals m = .ok res ∨ mergeQueriesLoop vals m = .error res) →
      (∀ p ∈ m, nonNullish p.2 = true) →
      ∀ p ∈ res, nonNullish p.2 = true := by
  intro vals
  induction vals with
  | nil =>
    intro m res h hm
    rcases h with h | h <;> simp only [mergeQueriesLoop] at h
    · cases h; exact hm
    · cases h
  | cons q rest ih =>
    intro m res h hm
    by_cases hq : nonNullish q = true
    · rcases h with h | h <;> simp only [mergeQueriesLoop, hq, if_true] at h <;>
        · refine ih _ res (by first | exact Or.inl h | exact Or.inr h) ?_
          intro p hp
          rcases mem_setField hp with h1 | h1
          · subst h1; rfl
          · exact hm p h1
    · have hq' : nonNullish q = false := by simpa using hq
      rcases h with h | h <;>
        simp only [mergeQueriesLoop, hq', Bool.false_eq_true, if_false] at h
      · cases h
      · cases h; exact hm

theorem mergeEditorsLoop_queries_unchanged :
    ∀ (qes : List JVal) (unsaved : JVal) (m : List (String × JVal)),
      (∃ r, mergeEditorsLoop unsaved qes m = .ok r) ∨
      (∃ r, mergeEditorsLoop unsaved qes m = .error r) := by
  intro qes unsaved
  induction qes with
  | nil => intro m; exact Or.inl ⟨m, rfl⟩
  | cons q rest ih =>
    intro m
    by_cases hq : nonNullish q = true
    · rcases ih (setField m (jsToString (getPropD q "id"))
        (.obj (mergeLegacyEditorFields unsaved ((lookup m (jsToString (getPropD q "id"))).getD .undef) q))) with ⟨r, hr⟩ | ⟨r, hr⟩
      · exact Or.inl ⟨r, by simp only [mergeEditorsLoop, hq, if_true]; exact hr⟩
      · exact Or.inr ⟨r, by simp only [mergeEditorsLoop, hq, if_true]; exact hr⟩
    · have hq' : nonNullish q = false := by simpa using hq
      exact Or.inr ⟨m, by simp only [mergeEditorsLoop, hq', Bool.false_eq_true, if_false]⟩

theorem legacyMerge_queries_vals (sqlLab : JVal) (st : WorkState)
    (hst : ∀ p ∈ st.queries, nonNullish p.2 = true) :
    ∀ p ∈ (legacyMerge sqlLab st).queries, nonNullish p.2 = true := by
  unfold legacyMerge
  dsimp only
  split
  · split
    · exact hst
    · split
      · split
        · exact hst
        · split
          · exact hst
          · split
            · intro p hp
              exact mergeQueriesLoop_vals _ st.queries _ (Or.inr (by assumption)) hst p hp
            · split
              · intro p hp
                exact mergeQueriesLoop_vals _ st.queries _ (Or.inl (by assumption)) hst p hp
              · intro p hp
                exact mergeQueriesLoop_vals _ st.queries _ (Or.inl (by assumption)) hst p hp
      · exact hst
  · exact hst

theorem legacyStage_queries_vals (legacy : Option (Except Unit JVal)) (st : WorkState)
    (hst : ∀ p ∈ st.queries, nonNullish p.2 = true) :
    ∀ p ∈ (legacyStage legacy st).1.queries, nonNullish p.2 = true := by
  unfold legacyStage
  cases legacy with
  | none => exact hst
  | some x =>
    cases x with
    | error e => exact hst
    | ok v =>
      dsimp only
      split
      · exact hst
      · split
        · split
          · exact hst
          · split
            · exact hst
            · exact legacyMerge_queries_vals _ st hst
        · exact hst

theorem tabStateEntries_ok {v : JVal} (h : wfTabStateIds v = true) :
    ∃ xs, tabStateEntries v = .ok xs ∧ ∀ e ∈ xs, wfEntry e = true := by
  cases v with
  | undef => exact ⟨[], rfl, fun e he => absurd he (List.not_mem_nil _)⟩
  | arr l => exact ⟨l, rfl, by simpa [wfTabStateIds, List.all_eq_true] using h⟩
  | null => simp [wfTabStateIds] at h
  | bool b => simp [wfTabStateIds] at h
  | num n => simp [wfTabStateIds] at h
  | nan => simp [wfTabStateIds] at h
  | str s => simp [wfTabStateIds] at h
  | obj fs => simp [wfTabStateIds] at h

theorem serverStageEditors_ok (activeTab defQE : JVal) :
    ∀ (entries : List JVal) (m : List (String × JVal)),
      (∀ e ∈ entries, wfEntry e = true) →
      ∃ r, serverStageEditors activeTab defQE entries m = .ok r := by
  intro entries
  induction entries with
  | nil => exact fun m _ => ⟨m, rfl⟩
  | cons e rest ih =>
    intro m h
    have he : wfEntry e = true := h e (List.mem_cons_self _ _)
    rw [wfEntry, Bool.and_eq_true] at he
    obtain ⟨h1, h2⟩ := he
    obtain ⟨r, hr⟩ := ih (setField m (jsToString (getPropD e "id"))
        (if truthy activeTab && jsEq (getPropD activeTab "id") (getPropD e "id") then
          buildQueryEditor activeTab (jsToString (getPropD e "id"))
        else .obj (dummyEditorFields defQE (jsToString (getPropD e "id")) (getPropD e "label"))))
      (fun e' he' => h e' (List.mem_cons_of_mem _ he'))
    refine ⟨r, ?_⟩
    simp only [serverStageEditors, getProp_ok h1, jsToStringM_ok h2, bind, Except.bind]
    exact hr

theorem serverTabHistory_ok {activeTab : JVal} (h : wfActiveTab activeTab = true) :
    ∃ r, serverTabHistory activeTab = .ok r := by
  by_cases ht : truthy activeTab = true
  · rw [wfActiveTab, ht] at h
    simp only [Bool.not_true, Bool.false_or, Bool.and_eq_true] at h
    refine ⟨[JVal.str (jsToString (getPropD activeTab "id"))], ?_⟩
    simp [serverTabHistory, ht, jsToStringM_ok h.1, bind, Except.bind, pure, Except.pure]
  · have ht' : truthy activeTab = false := by simpa using ht
    exact ⟨[], by simp [serverTabHistory, ht', pure, Except.pure]⟩

theorem destructureRest_ok {v : JVal} (h : nonNullish v = true) (k : String) :
    destructureRest v k
      = .ok (getPropD v k, .obj ((ownEnumerable v).filter (fun p => p.1 != k))) := by
  cases v <;> first | rfl | simp [nonNullish] at h

theorem filterDescNonNull_ok :
    ∀ (l : List JVal), (∀ ts ∈ l, nonNullish ts = true) →
      ∃ r, filterDescNonNull l = .ok r ∧
        ∀ ts ∈ r, ts ∈ l ∧ jsEq (getPropD ts "description") .null = false := by
  intro l
  induction l with
  | nil => exact fun _ => ⟨[], rfl, fun ts hts => absurd hts (List.not_mem_nil _)⟩
  | cons t rest ih =>
    intro h
    obtain ⟨r, hr, hmem⟩ := ih (fun ts hts => h ts (List.mem_cons_of_mem _ hts))
    have ht : nonNullish t = true := h t (List.mem_cons_self _ _)
    by_cases hd : jsEq (getPropD t "description") .null = true
    · refine ⟨r, ?_, ?_⟩
      · simp [filterDescNonNull, getProp_ok ht, bind, Except.bind, hr, hd, pure, Except.pure]
      · intro ts hts
        obtain ⟨h1, h2⟩ := hmem ts hts
        exact ⟨List.mem_cons_of_mem _ h1, h2⟩
    · have hd' : jsEq (getPropD t "description") .null = false := by simpa using hd
      refine ⟨t :: r, ?_, ?_⟩
      · simp [filterDescNonNull, getProp_ok ht, bind, Except.bind, hr, hd', pure, Except.pure]
      · intro ts hts
        rcases List.mem_cons.mp hts with h1 | h1
        · subst h1
          exact ⟨List.mem_cons_self _ _, hd'⟩
        · obtain ⟨h1', h2⟩ := hmem ts h1
          exact ⟨List.mem_cons_of_mem _ h1', h2⟩

theorem buildTables_ok :
    ∀ (l : List JVal) (m : List (String × JVal)),
      (∀ ts ∈ l, nonNullish ts = true ∧
        nonNullish (getPropD ts "description") = true ∧
        nonNullish (getPropD ts "tab_state_id") = true) →
      ∃ r, buildTables l m = .ok r := by
  intro l
  induction l with
  | nil => exact fun m _ => ⟨m, rfl⟩
  | cons ts rest ih =>
    intro m h
    obtain ⟨h1, h2, h3⟩ := h ts (List.mem_cons_self _ _)
    simp only [buildTables, getProp_ok h1, destructureRest_ok h2, jsToStringM_ok h3,
      bind, Except.bind]
    exact ih _ (fun ts' hts' => h ts' (List.mem_cons_of_mem _ hts'))

theorem serverTables_ok {activeTab : JVal} (ht : truthy activeTab = true)
    (h : wfActiveTab activeTab = true) :
    ∃ r, serverTables activeTab = .ok r := by
  have hnn : nonNullish activeTab = true := by
    cases activeTab <;> simp_all [truthy, nonNullish]
  rw [wfActiveTab, ht] at h
  simp only [Bool.not_true, Bool.false_or, Bool.and_eq_true] at h
  obtain ⟨hid, hts⟩ := h
  cases hschemas : getPropD activeTab "table_schemas" with
  | arr l =>
    rw [hschemas] at hts
    have hall : ∀ ts ∈ l, wfTableSchema ts = true := by
      simpa [List.all_eq_true] using hts
    have hnnl : ∀ ts ∈ l, nonNullish ts = true := by
      intro ts hmem
      have hw := hall ts hmem
      rw [wfTableSchema, Bool.and_eq_true] at hw
      exact hw.1
    obtain ⟨kept, hkept, hkmem⟩ := filterDescNonNull_ok l hnnl
    simp only [serverTables, getProp_ok hnn, hschemas, bind, Except.bind, hkept]
    refine buildTables_ok kept [] ?_
    intro ts hts'
    obtain ⟨hin, hdesc⟩ := hkmem ts hts'
    have hw := hall ts hin
    rw [wfTableSchema, Bool.and_eq_true] at hw
    obtain ⟨hw1, hw2⟩ := hw
    rw [Bool.or_eq_true] at hw2
    rcases hw2 with hw2 | hw2
    · rw [hw2] at hdesc
      cases hdesc
    · rw [Bool.and_eq_true] at hw2
      exact ⟨hw1, hw2.1, hw2.2⟩
  | undef => rw [hschemas] at hts; cases hts
  | null => rw [hschemas] at hts; cases hts
  | bool b => rw [hschemas] at hts; cases hts
  | num n => rw [hschemas] at hts; cases hts
  | nan => rw [hschemas] at hts; cases hts
  | str s => rw [hschemas] at hts; cases hts
  | obj fs => rw [hschemas] at hts; cases hts

theorem serverTablesStage_ok {activeTab : JVal} (h : wfActiveTab activeTab = true) :
    ∃ r, serverTablesStage activeTab = .ok r := by
  by_cases ht : truthy activeTab = true
  · obtain ⟨r, hr⟩ := serverTables_ok ht h
    exact ⟨r, by simp [serverTablesStage, ht, hr]⟩
  · have ht' : truthy activeTab = false := by simpa using ht
    exact ⟨[], by simp [serverTablesStage, ht', pure, Except.pure]⟩

theorem serverStage_ok {a : Args} (h : wfArgs a = true) :
    ∃ st, serverStage a = .ok st ∧
      st.queries = spreadInto [] (ownEnumerable a.queries) := by
  rw [wfArgs] at h
  simp only [Bool.and_eq_true] at h
  obtain ⟨⟨⟨⟨hc, hconf⟩, hts⟩, hat⟩, hq⟩ := h
  obtain ⟨entries, hent, hentwf⟩ := tabStateEntries_ok hts
  obtain ⟨qeMap, hqe⟩ := serverStageEditors_ok a.active_tab
    (defaultQueryEditor a.defaultDbId
      (getPropD (getPropD a.common "conf") "DEFAULT_SQLLAB_LIMIT")) entries [] hentwf
  obtain ⟨th, hth⟩ := serverTabHistory_ok hat
  obtain ⟨tbls, htbl⟩ := serverTablesStage_ok hat
  refine ⟨{ queryEditors := qeMap, tabHistory := th, tables := tbls,
            queries := spreadInto [] (ownEnumerable a.queries),
            unsavedQueryEditor := .obj [] }, ?_, rfl⟩
  simp only [serverStage, getProp_ok hc, getProp_ok hconf, hent, hqe, hth, htbl,
    bind, Except.bind, pure, Except.pure]

theorem coerceQuery_ok {q : JVal} (h : nonNullish q = true) :
    coerceQuery q = .ok (.obj (coerceQueryFields q)) := by
  cases q <;> first | rfl | simp [nonNullish] at h

theorem coerceQueries_ok :
    ∀ (qs : List (String × JVal)), (∀ p ∈ qs, nonNullish p.2 = true) →
      ∃ m, coerceQueries qs = .ok m := by
  intro qs
  induction qs with
  | nil => exact fun _ => ⟨[], rfl⟩
  | cons p rest ih =>
    intro h
    obtain ⟨k, q⟩ := p
    obtain ⟨m, hm⟩ := ih (fun p' hp' => h p' (List.mem_cons_of_mem _ hp'))
    refine ⟨(k, .obj (coerceQueryFields q)) :: m, ?_⟩
    have hq : nonNullish q = true := h (k, q) (List.mem_cons_self _ _)
    simp [coerceQueries, coerceQuery_ok hq, hm, bind, Except.bind, pure, Except.pure]

theorem assemble_ok (a : Args) (st : WorkState) (now : Int)
    (h : ∀ p ∈ st.queries, nonNullish p.2 = true) :
    ∃ snap, assemble a st now = .ok snap := by
  obtain ⟨m, hm⟩ := coerceQueries_ok st.queries h
  unfold assemble
  rw [hm]
  exact ⟨_, rfl⟩

/-- Counterexample for C9: a table schema whose `description` key is absent
reads as `undefined`; it passes the `!== null` filter and the rest
destructuring of `undefined` throws a `TypeError` outside the `try` block,
so `getInitialState` raises to its caller instead of returning a
snapshot. -/
theorem no_fatal_errors_counterexample :
    (getInitialState argsNoDescription none 0).1 = .error () := rfl

/-- C9 amended: for every input satisfying the documented interface contract
(`common.conf` reachable; `tab_state_ids` omitted or an array of
destructurable entries with stringifiable ids; `active_tab` falsy or
carrying a stringifiable id and an array of table schemas whose
descriptions are `null` or destructurable with stringifiable
`tab_state_id`; server query values non-nullish), `getInitialState`
returns a snapshot and never raises, for every legacy-storage content
whatsoever — reading, parsing or merging the legacy blob can never abort
startup. -/
theorem no_fatal_errors_amended :
    ∀ (a : Args) (legacy : Option (Except Unit JVal)) (now : Int),
      wfArgs a = true →
      ∃ snap, (getInitialState a legacy now).1 = .ok snap := by
  intro a legacy now h
  obtain ⟨st, hst, hq⟩ := serverStage_ok h
  have hq0 : ∀ p ∈ ownEnumerable a.queries, nonNullish p.2 = true := by
    rw [wfArgs] at h
    simp only [Bool.and_eq_true] at h
    have := h.2
    rw [wfQueries] at this
    simpa [List.all_eq_true] using this
  have hq1 : ∀ p ∈ st.queries, nonNullish p.2 = true := by
    rw [hq]
    exact mem_spreadInto_prop (ownEnumerable a.queries) []
      (fun p hp => absurd hp (List.not_mem_nil _)) hq0
  have hq2 := legacyStage_queries_vals legacy st hq1
  obtain ⟨snap, hsnap⟩ := assemble_ok a ((legacyStage legacy st).1) now hq2
  refine ⟨snap, ?_⟩
  unfold getInitialState
  rw [hst]
  exact hsnap

/-- Witness for C9's amended claim: a well-formed server input together
with a garbage legacy value still yields a snapshot. -/
theorem no_fatal_errors_amended_witness :
    wfArgs argsOneTab = true ∧
    ∃ snap, (getInitialState argsOneTab (some (.ok (.num 7))) 0).1 = .ok snap :=
  ⟨rfl, no_fatal_errors_amended argsOneTab (some (.ok (.num 7))) 0 rfl⟩
